import Mathlib

/-!
Shallow embedding of the obsidian-bases-gantt plugin core logic: the date
utilities (date-utils.ts), the task mapper and dependency sorter
(task-mapper.ts), property auto-detection and the progress write-back path
(gantt-view.ts).

Modelling conventions:
- A JavaScript `Date` is modelled by its local-time calendar fields at a
  fixed UTC offset, so `getTime()` order and equality coincide with
  lexicographic order and equality on the fields, and `setDate` is pure
  calendar arithmetic.
- A JavaScript number is modelled by an exact decimal fraction (integer
  numerator over a power-of-ten denominator); this is exact for the decimal
  literals flowing through the progress path.
- JavaScript string primitives (trim, split, includes, toLowerCase,
  template interpolation of integers, lexicographic comparison) are
  re-implemented over the character list of the string, because the
  built-in Lean string operations do not reduce inside the kernel.
- Unbounded `while` loops are modelled by structural recursion on an
  explicit bound chosen provably larger than the number of iterations the
  JavaScript loop performs.
-/

/-- One decimal digit rendered as a character, as JavaScript number
formatting does: `digitToChar n` is the character with code 48 + n. -/
def digitToChar (n : Nat) : Char := Char.ofNat (48 + n)

/-- Test for the regex class `\d` (ASCII decimal digit). -/
def isDigitC (c : Char) : Bool := 48 ≤ c.toNat && c.toNat ≤ 57

/-- Numeric value of a digit character. -/
def digitVal (c : Char) : Nat := c.toNat - 48

/-- Whitespace characters removed by the JavaScript `String.prototype.trim`
(modelled on the ASCII range plus no-break space). -/
def wsChar (c : Char) : Bool :=
  c.toNat = 32 || c.toNat = 9 || c.toNat = 10 || c.toNat = 11 ||
  c.toNat = 12 || c.toNat = 13 || c.toNat = 160

/-- Character-list model of `String.prototype.trim`. -/
def trimChars (l : List Char) : List Char :=
  ((l.dropWhile wsChar).reverse.dropWhile wsChar).reverse

/-- JavaScript `value.trim()` on a string. -/
def jsTrim (s : String) : String := String.mk (trimChars s.data)

/-- Character-list model of `s.split(sep)` for a one-character separator. -/
def splitOnCharAux (sep : Char) : List Char → List Char → List (List Char)
  | acc, [] => [acc.reverse]
  | acc, c :: rest =>
    if c = sep then acc.reverse :: splitOnCharAux sep [] rest
    else splitOnCharAux sep (c :: acc) rest

/-- JavaScript `s.split(',')`-style splitting of a string on one character. -/
def jsSplitOn (sep : Char) (s : String) : List String :=
  (splitOnCharAux sep [] s.data).map String.mk

/-- Does `hay` start with `needle`? (character-list model). -/
def listStartsWith : List Char → List Char → Bool
  | [], _ => true
  | _ :: _, [] => false
  | a :: as, b :: bs => a = b && listStartsWith as bs

/-- Character-list model of `hay.includes(needle)`. -/
def listContainsSeq (needle : List Char) : List Char → Bool
  | [] => needle.isEmpty
  | c :: rest => listStartsWith needle (c :: rest) || listContainsSeq needle rest

/-- JavaScript `s.includes(sub)`. -/
def jsIncludes (s sub : String) : Bool := listContainsSeq sub.data s.data

/-- ASCII model of `String.prototype.toLowerCase` on one character. -/
def toLowerC (c : Char) : Char :=
  if 65 ≤ c.toNat && c.toNat ≤ 90 then Char.ofNat (c.toNat + 32) else c

/-- JavaScript `s.toLowerCase()` (ASCII model). -/
def jsToLower (s : String) : String := String.mk (s.data.map toLowerC)

/-- Lexicographic code-unit comparison of character lists; models the
ordering that `a.localeCompare(b)` induces on the plain ASCII date strings
compared by the dependency sorter. -/
def lexLe : List Char → List Char → Bool
  | [], _ => true
  | _ :: _, [] => false
  | a :: as, b :: bs =>
    if a.toNat < b.toNat then true
    else if b.toNat < a.toNat then false
    else lexLe as bs

/-- String comparison used for sorting tasks by start date. -/
def jsStrLe (a b : String) : Bool := lexLe a.data b.data

/-- Little-endian-free decimal digit list of a natural number, most
significant digit first; `fuel` bounds the recursion depth and is always
instantiated above the number of digits. -/
def natDigitsAux : Nat → Nat → List Nat
  | 0, _ => []
  | fuel + 1, n => if n < 10 then [n] else natDigitsAux fuel (n / 10) ++ [n % 10]

/-- Decimal digits of a natural number, most significant first. -/
def natDigits (n : Nat) : List Nat := natDigitsAux (n + 1) n

/-- JavaScript template interpolation of a nonnegative integer:
its decimal representation without padding. -/
def jsNatToString (n : Nat) : String := String.mk ((natDigits n).map digitToChar)

/-- JavaScript `String(n).padStart(2, '0')` for the month and day fields. -/
def pad2 (n : Nat) : String :=
  if n < 10 then String.mk ('0' :: (natDigits n).map digitToChar) else jsNatToString n

/-- A JavaScript `Date`, modelled by its local-time calendar fields at a
fixed UTC offset.  `getTime()` equality is field equality and `getTime()`
order is lexicographic field order under this model. -/
structure JSDate where
  year : Nat
  month : Nat
  day : Nat
  hour : Nat
  minute : Nat
  second : Nat
deriving DecidableEq, Repr

/-- Gregorian leap-year rule, as implemented by the JavaScript `Date`. -/
def isLeapYear (y : Nat) : Bool := y % 4 = 0 && (y % 100 ≠ 0 || y % 400 = 0)

/-- Days in a month of the proleptic Gregorian calendar. -/
def daysInMonth (y m : Nat) : Nat :=
  if m = 1 then 31 else if m = 2 then (if isLeapYear y then 29 else 28)
  else if m = 3 then 31 else if m = 4 then 30 else if m = 5 then 31
  else if m = 6 then 30 else if m = 7 then 31 else if m = 8 then 31
  else if m = 9 then 30 else if m = 10 then 31 else if m = 11 then 30
  else 31

/-- The `getTime()` comparison `a < b` of two dates: lexicographic on the
local calendar fields, which agrees with epoch-milliseconds order at a
fixed UTC offset. -/
def jsDateLt (a b : JSDate) : Bool :=
  decide (a.year < b.year ∨ (a.year = b.year ∧ (a.month < b.month ∨ (a.month = b.month ∧
    (a.day < b.day ∨ (a.day = b.day ∧ (a.hour < b.hour ∨ (a.hour = b.hour ∧
    (a.minute < b.minute ∨ (a.minute = b.minute ∧ a.second < b.second))))))))))

/-- The idiom `d.setDate(d.getDate() + 1)`: advance a date by one calendar
day with month and year rollover, keeping the time of day. -/
def addOneDay (d : JSDate) : JSDate :=
  if d.day + 1 ≤ daysInMonth d.year d.month then
    { d with day := d.day + 1 }
  else if d.month ≥ 12 then
    { d with year := d.year + 1, month := 1, day := 1 }
  else
    { d with month := d.month + 1, day := 1 }

/-- Shape test for the regex `^\d{4}-\d{2}-\d{2}$` on the character list of
an already-trimmed string. -/
def strictDateChars : List Char → Bool
  | [y1, y2, y3, y4, s1, m1, m2, s2, d1, d2] =>
    isDigitC y1 && isDigitC y2 && isDigitC y3 && isDigitC y4 &&
    s1 = '-' && s2 = '-' &&
    isDigitC m1 && isDigitC m2 && isDigitC d1 && isDigitC d2
  | _ => false

/-- The date produced by `new Date(s + "T00:00:00")` for a string matching
the strict `YYYY-MM-DD` shape: midnight local time on that calendar day, or
`none` when the digits do not denote a valid calendar date (the ECMAScript
ISO parser rejects out-of-range months and days). -/
def parseStrictDate (l : List Char) : Option JSDate :=
  match l with
  | [y1, y2, y3, y4, _, m1, m2, _, d1, d2] =>
    let y := digitVal y1 * 1000 + digitVal y2 * 100 + digitVal y3 * 10 + digitVal y4
    let m := digitVal m1 * 10 + digitVal m2
    let d := digitVal d1 * 10 + digitVal d2
    if 1 ≤ m ∧ m ≤ 12 ∧ 1 ≤ d ∧ d ≤ daysInMonth y m then
      some ⟨y, m, d, 0, 0, 0⟩
    else none
  | _ => none

/-- Shape test for the regex `^\d{4}-\d{2}-\d{2} \d{2}:\d{2}(:\d{2})?$`. -/
def spaceDateTimeChars : List Char → Bool
  | [y1, y2, y3, y4, s1, m1, m2, s2, d1, d2, sp, h1, h2, c1, n1, n2] =>
    isDigitC y1 && isDigitC y2 && isDigitC y3 && isDigitC y4 &&
    s1 = '-' && s2 = '-' && sp = ' ' && c1 = ':' &&
    isDigitC m1 && isDigitC m2 && isDigitC d1 && isDigitC d2 &&
    isDigitC h1 && isDigitC h2 && isDigitC n1 && isDigitC n2
  | [y1, y2, y3, y4, s1, m1, m2, s2, d1, d2, sp, h1, h2, c1, n1, n2, c2, s1', s2'] =>
    isDigitC y1 && isDigitC y2 && isDigitC y3 && isDigitC y4 &&
    s1 = '-' && s2 = '-' && sp = ' ' && c1 = ':' && c2 = ':' &&
    isDigitC m1 && isDigitC m2 && isDigitC d1 && isDigitC d2 &&
    isDigitC h1 && isDigitC h2 && isDigitC n1 && isDigitC n2 &&
    isDigitC s1' && isDigitC s2'
  | _ => false

/-- Validity check and construction shared by the two datetime shapes:
what `new Date("YYYY-MM-DDTHH:MM:SS")` yields as local time, including the
ECMAScript `24:00:00` end-of-day form. -/
def mkDateTime (y m d h mi s : Nat) : Option JSDate :=
  if 1 ≤ m ∧ m ≤ 12 ∧ 1 ≤ d ∧ d ≤ daysInMonth y m then
    if h = 24 ∧ mi = 0 ∧ s = 0 then some (addOneDay ⟨y, m, d, 0, 0, 0⟩)
    else if h ≤ 23 ∧ mi ≤ 59 ∧ s ≤ 59 then some ⟨y, m, d, h, mi, s⟩
    else none
  else none

/-- The date produced by `new Date(trimmed.replace(' ', 'T'))` for a string
matching the space-separated datetime shape. -/
def parseSpaceDateTime (l : List Char) : Option JSDate :=
  match l with
  | [y1, y2, y3, y4, _, m1, m2, _, d1, d2, _, h1, h2, _, n1, n2] =>
    mkDateTime
      (digitVal y1 * 1000 + digitVal y2 * 100 + digitVal y3 * 10 + digitVal y4)
      (digitVal m1 * 10 + digitVal m2) (digitVal d1 * 10 + digitVal d2)
      (digitVal h1 * 10 + digitVal h2) (digitVal n1 * 10 + digitVal n2) 0
  | [y1, y2, y3, y4, _, m1, m2, _, d1, d2, _, h1, h2, _, n1, n2, _, s1, s2] =>
    mkDateTime
      (digitVal y1 * 1000 + digitVal y2 * 100 + digitVal y3 * 10 + digitVal y4)
      (digitVal m1 * 10 + digitVal m2) (digitVal d1 * 10 + digitVal d2)
      (digitVal h1 * 10 + digitVal h2) (digitVal n1 * 10 + digitVal n2)
      (digitVal s1 * 10 + digitVal s2)
  | _ => none

/-- Embedding of `parseObsidianDate` (date-utils.ts, lines 440 to 472) on
the string-or-null inputs that `extractRawValue` supplies to it inside the
task mapper.  The final generic branch `new Date(trimmed)` is
engine-defined for arbitrary strings and is abstracted by the parameter
`g`. -/
def parseObsidianDate (g : String → Option JSDate) : Option String → Option JSDate
  | none => none
  | some v =>
    let t := jsTrim v
    if t = "" then none
    else if strictDateChars t.data then parseStrictDate t.data
    else if spaceDateTimeChars t.data then parseSpaceDateTime t.data
    else g t

/-- Embedding of `formatDateForGantt` (date-utils.ts, lines 477 to 482):
unpadded year, two-digit month and day. -/
def formatDateForGantt (date : JSDate) : String :=
  jsNatToString date.year ++ "-" ++ pad2 date.month ++ "-" ++ pad2 date.day

/-- A JavaScript number along the progress path, modelled as an exact
decimal fraction: `num / den` with `den` a positive power of ten.  This is
exact for the decimal literals `parseFloat` reads from frontmatter. -/
structure JSNum where
  num : Int
  den : Nat
deriving DecidableEq, Repr

/-- Numeric comparison `a <= b` of two modelled numbers. -/
def jsNumLe (a b : JSNum) : Bool := a.num * (b.den : Int) ≤ b.num * (a.den : Int)

/-- The literal 0. -/
def jsNumZero : JSNum := ⟨0, 1⟩

/-- The literal 100. -/
def jsNumHundred : JSNum := ⟨100, 1⟩

/-- `Math.min(a, b)`: returns the numerically smaller argument. -/
def jsMin (a b : JSNum) : JSNum := if jsNumLe b a then b else a

/-- `Math.max(a, b)`: returns the numerically larger argument. -/
def jsMax (a b : JSNum) : JSNum := if jsNumLe a b then b else a

/-- Is a modelled number numerically an integer? -/
def jsNumIsInt (a : JSNum) : Bool := a.num % (a.den : Int) = 0

/-- `Math.round(x)`: floor of x + 1/2. -/
def jsRound (a : JSNum) : Int := Int.fdiv (2 * a.num + (a.den : Int)) (2 * (a.den : Int))

/-- Value of a most-significant-first digit list. -/
def digitsToNat : List Nat → Nat
  | [] => 0
  | d :: rest => d * 10 ^ rest.length + digitsToNat rest

/-- Embedding of `parseFloat(String(raw))` as the task mapper uses it:
skip leading whitespace, optional sign, decimal digits with an optional
fraction and an optional exponent, stopping at the first character that
does not continue the literal.  Returns `none` where `parseFloat` returns
`NaN` (no digit could be read).  The `Infinity` literals, which cannot be
represented by a finite fraction, are outside this model; no claim
involves them. -/
def parseFloatAux (l : List Char) : Option JSNum :=
  let l1 := l.dropWhile wsChar
  let (sign, l2) : Int × List Char :=
    match l1 with
    | '-' :: rest => (-1, rest)
    | '+' :: rest => (1, rest)
    | rest => (1, rest)
  let intDigits := l2.takeWhile isDigitC
  let l3 := l2.drop intDigits.length
  let (fracDigits, l4) : List Char × List Char :=
    match l3 with
    | '.' :: rest => (rest.takeWhile isDigitC, rest.drop (rest.takeWhile isDigitC).length)
    | rest => ([], rest)
  if intDigits.isEmpty && fracDigits.isEmpty then none
  else
    let mantNum : Int := sign * (digitsToNat ((intDigits ++ fracDigits).map digitVal) : Int)
    let mantDen : Nat := 10 ^ fracDigits.length
    let expVal : Option Int :=
      match l4 with
      | 'e' :: '-' :: rest =>
        let ds := rest.takeWhile isDigitC
        if ds.isEmpty then none else some (-(digitsToNat (ds.map digitVal) : Int))
      | 'e' :: '+' :: rest =>
        let ds := rest.takeWhile isDigitC
        if ds.isEmpty then none else some (digitsToNat (ds.map digitVal) : Int)
      | 'e' :: rest =>
        let ds := rest.takeWhile isDigitC
        if ds.isEmpty then none else some (digitsToNat (ds.map digitVal) : Int)
      | 'E' :: '-' :: rest =>
        let ds := rest.takeWhile isDigitC
        if ds.isEmpty then none else some (-(digitsToNat (ds.map digitVal) : Int))
      | 'E' :: '+' :: rest =>
        let ds := rest.takeWhile isDigitC
        if ds.isEmpty then none else some (digitsToNat (ds.map digitVal) : Int)
      | 'E' :: rest =>
        let ds := rest.takeWhile isDigitC
        if ds.isEmpty then none else some (digitsToNat (ds.map digitVal) : Int)
      | _ => none
    match expVal with
    | none => some ⟨mantNum, mantDen⟩
    | some e =>
      if 0 ≤ e then some ⟨mantNum * (10 ^ e.toNat : Nat), mantDen⟩
      else some ⟨mantNum, mantDen * 10 ^ (-e).toNat⟩

/-- `parseFloat` on a string. -/
def jsParseFloat (s : String) : Option JSNum := parseFloatAux s.data

/-- An Obsidian `Value` as the mapper and the property detector observe it:
`jsNull` is the JavaScript null/undefined returned when a property is
absent, `nullValue` is an Obsidian `NullValue` instance (a present property
holding null), `dateV` is a `DateValue` carrying the string its
`dateOnly()` prints, `numV` a `NumberValue` and `strV` any other value,
each carrying the string its `toString()` prints. -/
inductive Value where
  | jsNull : Value
  | nullValue : Value
  | dateV : String → Value
  | numV : String → Value
  | strV : String → Value
deriving DecidableEq, Repr

/-- Embedding of `extractRawValue` (task-mapper.ts, lines 30 to 36). -/
def extractRawValue : Value → Option String
  | .jsNull => none
  | .nullValue => none
  | .dateV s => some s
  | .numV s => some s
  | .strV s => some s

/-- The file behind a Bases entry: its vault path and basename. -/
structure TFile where
  path : String
  basename : String
deriving DecidableEq, Repr

/-- A Bases entry: a file plus the property lookup `getValue`. -/
structure BasesEntry where
  file : TFile
  getValue : String → Value

/-- Embedding of `TaskMapperConfig` (task-mapper.ts, lines 12 to 20);
property identifiers are strings. -/
structure TaskMapperConfig where
  startProperty : Option String
  endProperty : Option String
  labelProperty : Option String
  dependenciesProperty : Option String
  colorByProperty : Option String
  progressProperty : Option String
  showProgress : Bool

/-- Embedding of `GanttTask` (task-mapper.ts): the Frappe task fields plus
the file path and the milestone flag.  The source field `end` is written
`end_` because `end` is reserved in Lean. -/
structure GanttTask where
  id : String
  name : String
  start : String
  end_ : String
  progress : JSNum
  dependencies : String
  custom_class : String
  filePath : String
  isMilestone : Bool
deriving DecidableEq, Repr

/-- Embedding of `makeTaskId` (task-mapper.ts, lines 42 to 44): the file
path with every space replaced by an underscore. -/
def makeTaskId (filePath : String) : String :=
  String.mk (filePath.data.map (fun c => if c = ' ' then '_' else c))

/-- The replacement `path.replace(/\.[^.]+$/, '')`: strip a final
dot-extension when the path ends in a dot followed by at least one
non-dot character. -/
def stripExt (path : String) : String :=
  match (splitOnCharAux '.' [] path.data).map String.mk with
  | [] => path
  | [_] => path
  | parts =>
    if parts.getLast? = some "" then path
    else String.intercalate "." (parts.dropLast)

/-- A JavaScript `Map` built by successive `set` calls, modelled as the
insertion list; `jsMapGet?` returns the value of the LAST `set` for a key,
matching the overwrite semantics of `Map.prototype.set`. -/
def jsMapGet? {α : Type} : List (String × α) → String → Option α
  | [], _ => none
  | (k', v) :: rest, k =>
    match jsMapGet? rest k with
    | some r => some r
    | none => if k' = k then some v else none

/-- First pass of `mapEntriesToTasks` (task-mapper.ts, lines 94 to 101):
map both the basename and the extension-stripped path of every entry to
its task id; later entries overwrite earlier ones on basename collisions. -/
def buildNameToId (entries : List BasesEntry) : List (String × String) :=
  entries.flatMap (fun e =>
    [(e.file.basename, makeTaskId e.file.path),
     (stripExt e.file.path, makeTaskId e.file.path)])

/-- Color pass of `mapEntriesToTasks` (task-mapper.ts, lines 104 to 113):
each distinct raw color value, in first-seen order, gets the next color
index modulo 8. -/
def buildColorValues (cfg : TaskMapperConfig) (entries : List BasesEntry) :
    List (String × Nat) :=
  match cfg.colorByProperty with
  | none => []
  | some p =>
    entries.foldl (fun acc e =>
      match extractRawValue (e.getValue p) with
      | none => acc
      | some raw =>
        if (jsMapGet? acc raw).isSome then acc else acc ++ [(raw, acc.length % 8)]) []

/-- Continuation of a wiki-link match after its pipe: the optional
`(?:\|[^\]]+)?` group followed by the closing brackets. -/
def matchWikiAlias (tgt r3 : List Char) : Option (List Char × Nat) :=
  let alias_ := r3.takeWhile (fun c => c ≠ ']')
  if alias_.isEmpty then none
  else
    match r3.drop alias_.length with
    | x :: y :: _ =>
      if x = ']' && y = ']' then some (tgt, 2 + tgt.length + 1 + alias_.length + 2)
      else none
    | _ => none

/-- One attempted match of the regex `\[\[([^\]|]+)(?:\|[^\]]+)?\]\]` at the
head of the character list (main part): on success returns the captured
target and the number of characters the whole match consumed.
`matchWikiAlias` above handles the optional `|Alias` continuation. -/
def matchWikiAt (l : List Char) : Option (List Char × Nat) :=
  match l with
  | a :: b :: rest =>
    if a = '[' && b = '[' then
      let tgt := rest.takeWhile (fun c => c ≠ ']' && c ≠ '|')
      let rest2 := rest.drop tgt.length
      if tgt.isEmpty then none
      else
        match rest2 with
        | x :: y :: _ =>
          if x = ']' && y = ']' then some (tgt, 2 + tgt.length + 2)
          else if x = '|' then matchWikiAlias tgt (rest2.drop 1)
          else none
        | _ => none
    else none
  | _ => none

/-- The scan loop `while ((match = wikiLinkRegex.exec(depStr)) !== null)`:
collect the capture of every successive non-overlapping match, resuming
after each match and advancing one character after a failed attempt.
`fuel` bounds the recursion and is instantiated above the string length. -/
def scanWikiAux : Nat → List Char → List (List Char)
  | 0, _ => []
  | _ + 1, [] => []
  | fuel + 1, c :: rest =>
    match matchWikiAt (c :: rest) with
    | some (tgt, n) => tgt :: scanWikiAux fuel ((c :: rest).drop n)
    | none => scanWikiAux fuel rest

/-- All wiki-link targets found in a dependency string, in order. -/
def scanWiki (l : List Char) : List (List Char) := scanWikiAux (l.length + 1) l

/-- The wiki-link resolution pass (task-mapper.ts, lines 171 to 181): each
trimmed capture is looked up in the name index, unresolved names dropped. -/
def wikiResolved (nameToId : List (String × String)) (depStr : String) : List String :=
  (scanWiki depStr.data).filterMap (fun t => jsMapGet? nameToId (jsTrim (String.mk t)))

/-- The comma-separated plain-name pass (task-mapper.ts, lines 184 to 191):
split on commas, trim, drop empty tokens, look each token up, drop
unresolved names. -/
def plainResolved (nameToId : List (String × String)) (depStr : String) : List String :=
  (((jsSplitOn ',' depStr).map jsTrim).filter (fun s => s ≠ "")).filterMap
    (fun t => jsMapGet? nameToId t)

/-- Dependency resolution for one raw dependency string (task-mapper.ts,
lines 169 to 192): wiki-links first; the plain-name fallback runs exactly
when no id was resolved AND the text does not contain the substring
double-open-bracket; the ids are joined with a comma and a space. -/
def resolveDependencies (nameToId : List (String × String)) (depStr : String) : String :=
  let depIds := wikiResolved nameToId depStr
  let depIds2 :=
    if depIds.isEmpty && !(jsIncludes depStr "[[") then plainResolved nameToId depStr
    else depIds
  String.intercalate ", " depIds2

/-- Raw end value resolution (task-mapper.ts, lines 123 to 127): parse the
end property value when an end role is assigned. -/
def endResolved (g : String → Option JSDate) (cfg : TaskMapperConfig)
    (e : BasesEntry) : Option JSDate :=
  match cfg.endProperty with
  | none => none
  | some p => parseObsidianDate g (extractRawValue (e.getValue p))

/-- End-date defaulting (task-mapper.ts, lines 128 to 138): absent or
unparseable end defaults to start + 1 day, and an end before start is
replaced by the same default. -/
def endAfterDefault (startDate : JSDate) (parsed : Option JSDate) : JSDate :=
  let e1 := match parsed with | none => addOneDay startDate | some d => d
  if jsDateLt e1 startDate then addOneDay startDate else e1

/-- Label resolution (task-mapper.ts, lines 140 to 148): the basename,
overridden by a label value that is non-null and does not trim to empty. -/
def labelOf (cfg : TaskMapperConfig) (e : BasesEntry) : String :=
  match cfg.labelProperty with
  | none => e.file.basename
  | some p =>
    match extractRawValue (e.getValue p) with
    | none => e.file.basename
    | some raw => if jsTrim raw ≠ "" then raw else e.file.basename

/-- The inner progress computation (task-mapper.ts, lines 153 to 160):
parse the raw value, ignore it when `parseFloat` rejects it, clamp it to
[0, 100] otherwise. -/
def clampProgress (raw : Option String) : JSNum :=
  match raw with
  | none => jsNumZero
  | some r =>
    match jsParseFloat r with
    | none => jsNumZero
    | some num => jsMax jsNumZero (jsMin jsNumHundred num)

/-- Progress resolution (task-mapper.ts, lines 150 to 161): 0 unless
progress display is on and the progress role resolves to a value that
`parseFloat` accepts, in which case the value is clamped to [0, 100]. -/
def progressOf (cfg : TaskMapperConfig) (e : BasesEntry) : JSNum :=
  if cfg.showProgress then
    match cfg.progressProperty with
    | none => jsNumZero
    | some p => clampProgress (extractRawValue (e.getValue p))
  else jsNumZero

/-- Color class resolution (task-mapper.ts, lines 196 to 207). -/
def colorClassOf (cfg : TaskMapperConfig) (colorValues : List (String × Nat))
    (e : BasesEntry) : String :=
  match cfg.colorByProperty with
  | none => ""
  | some p =>
    match extractRawValue (e.getValue p) with
    | none => ""
    | some raw =>
      match jsMapGet? colorValues raw with
      | none => ""
      | some idx => "gantt-color-" ++ jsNatToString idx

/-- Dependency field of the task (task-mapper.ts, lines 163 to 194). -/
def dependenciesOf (cfg : TaskMapperConfig) (nameToId : List (String × String))
    (e : BasesEntry) : String :=
  match cfg.dependenciesProperty with
  | none => ""
  | some p =>
    match extractRawValue (e.getValue p) with
    | none => ""
    | some raw => resolveDependencies nameToId raw

/-- The milestone test (task-mapper.ts, line 210): the `getTime()`
equality of the parsed start with the already-defaulted end date. -/
def milestoneOf (startDate : JSDate) (parsed : Option JSDate) : Bool :=
  startDate = endAfterDefault startDate parsed

/-- The stored end date (task-mapper.ts, lines 211 to 214): a milestone
gets its end widened to start + 1 day so the rendering widget can draw
it. -/
def storedEndOf (startDate : JSDate) (parsed : Option JSDate) : JSDate :=
  if milestoneOf startDate parsed then addOneDay startDate
  else endAfterDefault startDate parsed

/-- The loop body of `mapEntriesToTasks` (task-mapper.ts, lines 117 to
234) for one entry: `none` when the start value is absent or unparseable
(the record is skipped), otherwise the constructed task.  A milestone with
no color class gets the milestone class. -/
def mapEntry (g : String → Option JSDate) (cfg : TaskMapperConfig)
    (startProp : String) (nameToId : List (String × String))
    (colorValues : List (String × Nat)) (e : BasesEntry) : Option GanttTask :=
  match parseObsidianDate g (extractRawValue (e.getValue startProp)) with
  | none => none
  | some startDate =>
    let isMilestone := milestoneOf startDate (endResolved g cfg e)
    let custom_class0 := colorClassOf cfg colorValues e
    let custom_class :=
      if isMilestone && (custom_class0 = "") then "gantt-milestone" else custom_class0
    some
      { id := makeTaskId e.file.path
        name := labelOf cfg e
        start := formatDateForGantt startDate
        end_ := formatDateForGantt (storedEndOf startDate (endResolved g cfg e))
        progress := progressOf cfg e
        dependencies := dependenciesOf cfg nameToId e
        custom_class := custom_class
        filePath := e.file.path
        isMilestone := isMilestone }

/-- Stable insertion of an element after every already-placed element that
compares less-or-equal: together with the left fold below this models the
(stable) `Array.prototype.sort`. -/
def insertSorted (le : GanttTask → GanttTask → Bool) (x : GanttTask) :
    List GanttTask → List GanttTask
  | [] => [x]
  | y :: ys => if le y x then y :: insertSorted le x ys else x :: y :: ys

/-- Stable sort modelling `tasks.sort((a, b) => a.start.localeCompare(b.start))`:
ascending by start-date string, with ties kept in input order. -/
def sortByStart (tasks : List GanttTask) : List GanttTask :=
  tasks.foldl (fun acc x => insertSorted (fun a b => jsStrLe a.start b.start) x acc) []

/-- Dependency parsing inside `sortByDependencies` (task-mapper.ts, lines
251 to 261): split the dependency field on commas, trim, keep the
non-empty ids that are keys of the task map. -/
def parseDeps (taskMap : List (String × GanttTask)) (t : GanttTask) : List String :=
  if t.dependencies = "" then []
  else
    ((jsSplitOn ',' t.dependencies).map jsTrim).filter
      (fun id => id ≠ "" && (jsMapGet? taskMap id).isSome)

/-- The `new Set(...)` of a list of strings: first-seen insertion order
with duplicates dropped, as JavaScript `Set` iteration yields it. -/
def jsSetOfList (l : List String) : List String :=
  l.foldl (fun acc x => if x ∈ acc then acc else acc ++ [x]) []

/-- The `while (remaining.size > 0)` loop of `sortByDependencies`
(task-mapper.ts, lines 267 to 291).  `fuel` bounds the recursion; each
iteration either consumes at least one remaining id or ends the loop, so
`remaining.length + 1` is always enough. -/
def sortLoop (taskMap : List (String × GanttTask))
    (depsOf : List (String × List String)) :
    Nat → List GanttTask → List String → List String → List GanttTask
  | 0, sorted, _, _ => sorted
  | _ + 1, sorted, _, [] => sorted
  | fuel + 1, sorted, placed, remaining@(_ :: _) =>
    let readyIds := remaining.filter
      (fun id => ((jsMapGet? depsOf id).getD []).all (fun d => placed.contains d))
    let ready := readyIds.filterMap (fun id => jsMapGet? taskMap id)
    if ready.isEmpty then
      sorted ++ sortByStart (remaining.filterMap (fun id => jsMapGet? taskMap id))
    else
      let readySorted := sortByStart ready
      sortLoop taskMap depsOf fuel (sorted ++ readySorted)
        (placed ++ readySorted.map (fun t => t.id))
        (remaining.filter (fun id => !(readySorted.map (fun t => t.id)).contains id))

/-- Embedding of `sortByDependencies` (task-mapper.ts, lines 244 to 294):
topological order with start-date tie-breaking, falling back to a plain
start-date sort of everything remaining when no task is ready. -/
def sortByDependencies (tasks : List GanttTask) : List GanttTask :=
  if tasks.length ≤ 1 then tasks
  else
    let taskMap := tasks.map (fun t => (t.id, t))
    let depsOf := tasks.map (fun t => (t.id, parseDeps taskMap t))
    let remaining := jsSetOfList (tasks.map (fun t => t.id))
    sortLoop taskMap depsOf (remaining.length + 1) [] [] remaining

/-- Embedding of `mapEntriesToTasks` (task-mapper.ts, lines 83 to 237). -/
def mapEntriesToTasks (g : String → Option JSDate) (entries : List BasesEntry)
    (cfg : TaskMapperConfig) : List GanttTask :=
  match cfg.startProperty with
  | none => []
  | some startProp =>
    let nameToId := buildNameToId entries
    let colorValues := buildColorValues cfg entries
    sortByDependencies (entries.filterMap (mapEntry g cfg startProp nameToId colorValues))

/-- Modelled from the spec (section 4.4 / claim C3): the dependency set of
a task for the described algorithm is the full comma-split id list of its
dependency field, WITHOUT the pruning to ids present in the task set that
the implementation performs; a dependency referencing a task not in the
set therefore never counts as placed. -/
def specParseDeps (t : GanttTask) : List String :=
  if t.dependencies = "" then []
  else ((jsSplitOn ',' t.dependencies).map jsTrim).filter (fun id => id ≠ "")

/-- Modelled from the spec (section 4.4): the described sorting algorithm,
identical to the implementation except that dependency sets are not pruned
to in-set ids. -/
def specSortByDependencies (tasks : List GanttTask) : List GanttTask :=
  if tasks.length ≤ 1 then tasks
  else
    let taskMap := tasks.map (fun t => (t.id, t))
    let depsOf := tasks.map (fun t => (t.id, specParseDeps t))
    let remaining := jsSetOfList (tasks.map (fun t => t.id))
    sortLoop taskMap depsOf (remaining.length + 1) [] [] remaining

/-- Modelled from the spec (section 4.3 step 8 / claim C6): the
comma-separated plain-name fallback activates exactly when ZERO
bracket-style links were found in the text, with no further condition on
the raw text. -/
def specResolveDependencies (nameToId : List (String × String)) (depStr : String) :
    String :=
  let found := scanWiki depStr.data
  let depIds := found.filterMap (fun t => jsMapGet? nameToId (jsTrim (String.mk t)))
  let depIds2 := if found.isEmpty then plainResolved nameToId depStr else depIds
  String.intercalate ", " depIds2

/-- The result record of `autoDetectProperties` (gantt-view.ts, lines 682
to 688); the source field `end` is written `end_`. -/
structure DetectedProps where
  start : Option String
  end_ : Option String
  dependencies : Option String
  progress : Option String
  colorBy : Option String
deriving DecidableEq, Repr

/-- The classification loop of `autoDetectProperties` (gantt-view.ts,
lines 699 to 709): each property id whose value on the first entry is not
JavaScript null lands in exactly one of the date, number or string pools;
note that an Obsidian `NullValue` instance is not JavaScript null and
lands in the string pool. -/
def classifyProps (e : BasesEntry) : List String → List String × List String × List String
  | [] => ([], [], [])
  | p :: rest =>
    let pools := classifyProps e rest
    match e.getValue p with
    | .jsNull => pools
    | .dateV _ => (p :: pools.1, pools.2.1, pools.2.2)
    | .numV _ => (pools.1, p :: pools.2.1, pools.2.2)
    | _ => (pools.1, pools.2.1, p :: pools.2.2)

/-- The characters after the first dot of an identifier (the identifier
itself when it has no dot): `dot >= 0 ? id.slice(dot + 1) : id`. -/
def dropThroughDot (l : List Char) : List Char :=
  if l.contains '.' then (l.dropWhile (fun c => c ≠ '.')).drop 1 else l

/-- `getName` inside `autoDetectProperties` (gantt-view.ts, lines 711 to
714): strip the type prefix up to the first dot, lowercase, delete every
hyphen and underscore. -/
def getName (id : String) : String :=
  String.mk (((dropThroughDot id.data).map toLowerC).filter (fun c => c ≠ '-' && c ≠ '_'))

/-- `findByKeywords` (gantt-view.ts, lines 716 to 722): the first property
whose normalized name contains some keyword as a substring. -/
def findByKeywords (props : List String) (keywords : List String) : Option String :=
  props.find? (fun p => keywords.any (fun k => jsIncludes (getName p) k))

/-- Start-role keywords. -/
def startKeywords : List String := ["start", "begin", "from", "created"]

/-- End-role keywords. -/
def endKeywords : List String := ["end", "due", "finish", "deadline", "until"]

/-- Dependency-role keywords. -/
def depKeywords : List String := ["depend", "block", "after", "prerequisite", "requires"]

/-- Progress-role keywords. -/
def progressKeywords : List String := ["progress", "percent", "completion", "complete", "done"]

/-- Color-role keywords. -/
def colorKeywords : List String := ["status", "priority", "type", "category", "phase", "stage"]

/-- Start-role detection (gantt-view.ts, lines 728 and 731): keyword match
first, then the positional fallback to the first date-like property. -/
def detectStart (dateProps : List String) : Option String :=
  match findByKeywords dateProps startKeywords with
  | some s => some s
  | none => dateProps.head?

/-- End-role detection (gantt-view.ts, lines 729 and 732): keyword match
first, then — when at least two date-like properties exist — the first
date-like property different from the detected start. -/
def detectEnd (dateProps : List String) (start1 : Option String) : Option String :=
  match findByKeywords dateProps endKeywords with
  | some x => some x
  | none =>
    if dateProps.length > 1 then dateProps.find? (fun p => !(start1 = some p))
    else none

/-- Embedding of `autoDetectProperties` (gantt-view.ts, lines 682 to 747):
classify the first entry, match keyword lists per pool, and fall back
positionally for the date roles. -/
def autoDetectProperties (allProps : List String) (entries : List BasesEntry) :
    DetectedProps :=
  match entries with
  | [] => ⟨none, none, none, none, none⟩
  | firstEntry :: _ =>
    let pools := classifyProps firstEntry allProps
    ⟨detectStart pools.1,
      detectEnd pools.1 (detectStart pools.1),
      findByKeywords pools.2.2 depKeywords,
      findByKeywords pools.2.1 progressKeywords,
      findByKeywords pools.2.2 colorKeywords⟩

/-- A frontmatter value written by the edit-back path. -/
inductive FMVal where
  | str : String → FMVal
  | num : Int → FMVal
deriving DecidableEq, Repr

/-- The structured fields of one note. -/
abbrev Frontmatter := List (String × FMVal)

/-- The vault, as the write-back path sees it: each file path with the
structured fields of that file. -/
abbrev Vault := List (String × Frontmatter)

/-- `app.vault.getFileByPath` followed by reading the frontmatter. -/
def vaultGet (v : Vault) (path : String) : Option Frontmatter :=
  (v.find? (fun p => p.1 == path)).map (fun p => p.2)

/-- Lookup of one frontmatter field. -/
def fmGet (fm : Frontmatter) (k : String) : Option FMVal :=
  (fm.find? (fun p => p.1 == k)).map (fun p => p.2)

/-- The object assignment `frontmatter[key] = value`: overwrite the field
when present, append it otherwise. -/
def setKey (fm : Frontmatter) (k : String) (v : FMVal) : Frontmatter :=
  if fm.any (fun p => p.1 == k) then
    fm.map (fun p => if p.1 == k then (p.1, v) else p)
  else fm ++ [(k, v)]

/-- The `processFrontMatter` callback body (gantt-view.ts, lines 1148 to
1152): assign every update key in order. -/
def applyUpdates (fm : Frontmatter) (updates : List (String × FMVal)) : Frontmatter :=
  updates.foldl (fun acc kv => setKey acc kv.1 kv.2) fm

/-- Embedding of `writeFrontmatter` (gantt-view.ts, lines 1141 to 1153):
a missing file makes the write a silent no-op; otherwise the updates are
applied to the frontmatter of exactly the addressed file. -/
def writeFrontmatter (v : Vault) (filePath : String)
    (updates : List (String × FMVal)) : Vault :=
  match vaultGet v filePath with
  | none => v
  | some _ =>
    v.map (fun p => if p.1 == filePath then (p.1, applyUpdates p.2 updates) else p)

/-- Embedding of `extractPropertyName` (gantt-view.ts, lines 1136 to
1139). -/
def extractPropertyName (propertyId : String) : String :=
  String.mk (dropThroughDot propertyId.data)

/-- Embedding of the `on_progress_change` callback (gantt-view.ts, lines
842 to 854): nothing happens when progress display is off, the task id is
unknown, or no progress role is mapped; otherwise exactly one field — the
mapped progress property — of the record behind the task is written with
the rounded progress. -/
def on_progress_change (showProgress : Bool) (taskMap : List (String × GanttTask))
    (cfg : TaskMapperConfig) (v : Vault) (taskId : String) (progress : JSNum) : Vault :=
  if !showProgress then v
  else
    match jsMapGet? taskMap taskId with
    | none => v
    | some ganttTask =>
      match cfg.progressProperty with
      | none => v
      | some pid =>
        writeFrontmatter v ganttTask.filePath
          [(extractPropertyName pid, FMVal.num (jsRound progress))]

/-- Generic-parse stub used for concrete examples: every string outside
the two ISO shapes is unparseable. -/
def gNone : String → Option JSDate := fun _ => none

/-- Build a concrete entry from a value association list; properties not
listed are JavaScript null, as `getValue` yields for absent properties. -/
def mkEntry (path basename : String) (vals : List (String × Value)) : BasesEntry :=
  ⟨⟨path, basename⟩, fun p => (jsMapGet? vals p).getD Value.jsNull⟩

/-- Example configuration: explicit start and end roles, nothing else. -/
def cfgA : TaskMapperConfig :=
  ⟨some "note.start", some "note.end", none, none, none, none, false⟩

/-- Example entry with a start date only. -/
def entA : BasesEntry := mkEntry "Task One.md" "Task One"
  [("note.start", Value.strV "2026-03-15")]

/-- The task `mapEntriesToTasks` produces for `entA` under `cfgA`. -/
def taskA : GanttTask :=
  ⟨"Task_One.md", "Task One", "2026-03-15", "2026-03-16", ⟨0, 1⟩, "", "",
   "Task One.md", false⟩

/-- Example entry whose start and end parse to the same instant. -/
def entMil : BasesEntry := mkEntry "A.md" "A"
  [("note.start", Value.strV "2026-03-15"), ("note.end", Value.strV "2026-03-15")]

/-- The task `mapEntriesToTasks` produces for `entMil` under `cfgA`. -/
def taskMil : GanttTask :=
  ⟨"A.md", "A", "2026-03-15", "2026-03-16", ⟨0, 1⟩, "", "gantt-milestone",
   "A.md", true⟩

/-- Example entry whose end falls on the same calendar day as its start
but at noon, so the two format equal but are different instants. -/
def entNoon : BasesEntry := mkEntry "B.md" "B"
  [("note.start", Value.strV "2026-03-15"), ("note.end", Value.strV "2026-03-15 12:00")]

/-- Task with a dependency on an id that is not in the task set. -/
def tDangA : GanttTask :=
  ⟨"A", "A", "2024-01-02", "2024-01-03", ⟨0, 1⟩, "X", "", "A.md", false⟩

/-- Task depending on `tDangA`, with the earlier start date. -/
def tDangB : GanttTask :=
  ⟨"B", "B", "2024-01-01", "2024-01-02", ⟨0, 1⟩, "A", "", "B.md", false⟩

/-- First of two tasks sharing an id. -/
def tDup1 : GanttTask :=
  ⟨"D", "D1", "2024-01-01", "2024-01-02", ⟨0, 1⟩, "", "", "D.md", false⟩

/-- Second of two tasks sharing an id. -/
def tDup2 : GanttTask :=
  ⟨"D", "D2", "2024-01-02", "2024-01-03", ⟨0, 1⟩, "", "", "D.md", false⟩

/-- Configuration with a dependencies role. -/
def cfgDep : TaskMapperConfig :=
  ⟨some "note.start", none, none, some "note.dep", none, none, false⟩

/-- Dependency target entry. -/
def entTaskA : BasesEntry := mkEntry "TaskA.md" "TaskA"
  [("note.start", Value.strV "2026-01-01")]

/-- Entry whose dependency text contains a double open bracket but no
complete wiki link. -/
def entDepB : BasesEntry := mkEntry "B.md" "B"
  [("note.start", Value.strV "2026-01-02"), ("note.dep", Value.strV "[[, TaskA")]

/-- Entry with a proper wiki-link dependency. -/
def entDepC : BasesEntry := mkEntry "C.md" "C"
  [("note.start", Value.strV "2026-01-03"), ("note.dep", Value.strV "[[TaskA]]")]

/-- Configuration with progress display on and a progress role. -/
def cfgProg : TaskMapperConfig :=
  ⟨some "note.start", none, none, none, none, some "note.prog", true⟩

/-- Entry whose progress value is the non-integer literal 42.5. -/
def entProg : BasesEntry := mkEntry "P.md" "P"
  [("note.start", Value.strV "2026-01-01"), ("note.prog", Value.strV "42.5")]

/-- Concrete vault for the write-back example. -/
def vaultEx : Vault :=
  [("P.md", [("progress", FMVal.num 10), ("status", FMVal.str "x")]),
   ("Q.md", [("progress", FMVal.num 5)])]

/-- Concrete task addressing the record `P.md`. -/
def taskP : GanttTask :=
  ⟨"P.md", "P", "2026-01-01", "2026-01-02", ⟨0, 1⟩, "", "", "P.md", false⟩

/-- Concrete task map for the write-back example. -/
def tmEx : List (String × GanttTask) := [("P.md", taskP)]

/-- Entry whose single date property name contains both a start keyword
and an end keyword. -/
def entSE : BasesEntry := mkEntry "X.md" "X" [("note.startend", Value.dateV "2026-01-01")]

/-- Entry with one numeric and one textual property. -/
def entND : BasesEntry := mkEntry "Y.md" "Y"
  [("note.done", Value.numV "40"), ("note.status", Value.strV "open")]

/-- Entry whose status property holds an Obsidian `NullValue`. -/
def entNullStatus : BasesEntry := mkEntry "Z.md" "Z" [("note.status", Value.nullValue)]

/-- The task `mapEntriesToTasks` produces for `entProg` under `cfgProg`:
its progress is the non-integer 42.5. -/
def taskProg : GanttTask :=
  ⟨"P.md", "P", "2026-01-01", "2026-01-02", ⟨425, 10⟩, "", "", "P.md", false⟩

/-- Entry exposing the same values as `entND` on the detected properties
plus one extra property. -/
def entW : BasesEntry := mkEntry "W.md" "W"
  [("note.done", Value.numV "40"), ("note.status", Value.strV "open"),
   ("note.extra", Value.strV "x")]

/-- Two strings with the same character list are equal. -/
theorem string_data_eq {s t : String} (h : s.data = t.data) : s = t := by
  cases s; cases t; exact congrArg String.mk h

/-- Appending strings concatenates their character lists. -/
theorem string_mk_append (a b : List Char) :
    String.mk a ++ String.mk b = String.mk (a ++ b) := rfl

theorem isDigitC_bounds {c : Char} (h : isDigitC c = true) :
    48 ≤ c.toNat ∧ c.toNat ≤ 57 := by
  simpa [isDigitC] using h

theorem digitToChar_digitVal {c : Char} (h : isDigitC c = true) :
    digitToChar (digitVal c) = c := by
  obtain ⟨h1, h2⟩ := isDigitC_bounds h
  unfold digitToChar digitVal
  have he : 48 + (c.toNat - 48) = c.toNat := by omega
  rw [he, Char.ofNat_toNat]

theorem digitVal_le_nine {c : Char} (h : isDigitC c = true) : digitVal c ≤ 9 := by
  obtain ⟨h1, h2⟩ := isDigitC_bounds h
  unfold digitVal
  omega

theorem wsChar_of_digit {c : Char} (h : isDigitC c = true) : wsChar c = false := by
  obtain ⟨h1, h2⟩ := isDigitC_bounds h
  simp [wsChar]
  omega

theorem natDigitsAux_congr : ∀ f1 f2 n, n < f1 → n < f2 →
    natDigitsAux f1 n = natDigitsAux f2 n := by
  intro f1
  induction f1 with
  | zero => intro f2 n h1; omega
  | succ f ih =>
    intro f2 n h1 h2
    cases f2 with
    | zero => omega
    | succ f2' =>
      simp only [natDigitsAux]
      by_cases hn : n < 10
      · simp [hn]
      · simp only [hn, if_false]
        have hd : n / 10 < n := Nat.div_lt_self (by omega) (by omega)
        rw [ih f2' (n / 10) (by omega) (by omega)]

theorem natDigits_small {n : Nat} (h : n < 10) : natDigits n = [n] := by
  simp [natDigits, natDigitsAux, h]

theorem natDigits_step {n : Nat} (h : 10 ≤ n) :
    natDigits n = natDigits (n / 10) ++ [n % 10] := by
  unfold natDigits
  conv_lhs => rw [natDigitsAux]
  simp only [show ¬ n < 10 by omega, if_false]
  congr 1
  exact natDigitsAux_congr n (n / 10 + 1) (n / 10) (Nat.div_lt_self (by omega) (by omega))
    (by omega)

theorem natDigits_two {a b : Nat} (ha : 1 ≤ a) (ha9 : a ≤ 9) (hb : b ≤ 9) :
    natDigits (a * 10 + b) = [a, b] := by
  rw [natDigits_step (by omega)]
  have h1 : (a * 10 + b) / 10 = a := by omega
  have h2 : (a * 10 + b) % 10 = b := by omega
  rw [h1, h2, natDigits_small (by omega)]
  rfl

theorem natDigits_four {a b c d : Nat} (ha : 1 ≤ a) (ha9 : a ≤ 9) (hb : b ≤ 9)
    (hc : c ≤ 9) (hd : d ≤ 9) :
    natDigits (a * 1000 + b * 100 + c * 10 + d) = [a, b, c, d] := by
  rw [natDigits_step (by omega)]
  have h1 : (a * 1000 + b * 100 + c * 10 + d) / 10 = a * 100 + b * 10 + c := by omega
  have h2 : (a * 1000 + b * 100 + c * 10 + d) % 10 = d := by omega
  rw [h1, h2, natDigits_step (by omega)]
  have h3 : (a * 100 + b * 10 + c) / 10 = a * 10 + b := by omega
  have h4 : (a * 100 + b * 10 + c) % 10 = c := by omega
  rw [h3, h4, natDigits_two ha ha9 hb]
  rfl

theorem pad2_digits {m1 m2 : Char} (h1 : isDigitC m1 = true) (h2 : isDigitC m2 = true) :
    pad2 (digitVal m1 * 10 + digitVal m2) = String.mk [m1, m2] := by
  have b1 := isDigitC_bounds h1
  have b2 := isDigitC_bounds h2
  by_cases hz : digitVal m1 = 0
  · have hm1 : m1 = '0' := by
      rw [← digitToChar_digitVal h1, hz]; rfl
    have hlt : digitVal m1 * 10 + digitVal m2 < 10 := by
      unfold digitVal at *; omega
    rw [pad2, if_pos hlt, hz]
    simp only [Nat.zero_mul, Nat.zero_add]
    rw [natDigits_small (by unfold digitVal at *; omega)]
    simp [hm1, List.map, digitToChar_digitVal h2]
  · have h10 : 10 ≤ digitVal m1 * 10 + digitVal m2 := by omega
    rw [pad2, if_neg (by omega)]
    unfold jsNatToString
    rw [natDigits_two (by omega) (digitVal_le_nine h1) (digitVal_le_nine h2)]
    simp [List.map, digitToChar_digitVal h1, digitToChar_digitVal h2]

theorem jsNatToString_four {y1 y2 y3 y4 : Char} (h1 : isDigitC y1 = true)
    (h2 : isDigitC y2 = true) (h3 : isDigitC y3 = true) (h4 : isDigitC y4 = true)
    (hy : 1000 ≤ digitVal y1 * 1000 + digitVal y2 * 100 + digitVal y3 * 10 + digitVal y4) :
    jsNatToString (digitVal y1 * 1000 + digitVal y2 * 100 + digitVal y3 * 10 + digitVal y4)
      = String.mk [y1, y2, y3, y4] := by
  have b1 := digitVal_le_nine h1
  have b2 := digitVal_le_nine h2
  have b3 := digitVal_le_nine h3
  have b4 := digitVal_le_nine h4
  unfold jsNatToString
  rw [natDigits_four (by omega) b1 b2 b3 b4]
  simp [List.map, digitToChar_digitVal h1, digitToChar_digitVal h2,
    digitToChar_digitVal h3, digitToChar_digitVal h4]

theorem dropWhile_false {p : Char → Bool} {l : List Char}
    (h : ∀ c ∈ l, p c = false) : l.dropWhile p = l := by
  cases l with
  | nil => rfl
  | cons a rest => simp [List.dropWhile_cons, h a (by simp)]

theorem trimChars_id {l : List Char} (h : ∀ c ∈ l, wsChar c = false) :
    trimChars l = l := by
  unfold trimChars
  rw [dropWhile_false h, dropWhile_false (by intro c hc; exact h c (by simpa using hc))]
  simp

theorem strictDateChars_shape {l : List Char} (h : strictDateChars l = true) :
    ∃ y1 y2 y3 y4 m1 m2 d1 d2,
      l = [y1, y2, y3, y4, '-', m1, m2, '-', d1, d2] ∧
      isDigitC y1 = true ∧ isDigitC y2 = true ∧ isDigitC y3 = true ∧
      isDigitC y4 = true ∧ isDigitC m1 = true ∧ isDigitC m2 = true ∧
      isDigitC d1 = true ∧ isDigitC d2 = true := by
  obtain _ | ⟨c1, l⟩ := l
  case nil => simp [strictDateChars] at h
  obtain _ | ⟨c2, l⟩ := l
  case nil => simp [strictDateChars] at h
  obtain _ | ⟨c3, l⟩ := l
  case nil => simp [strictDateChars] at h
  obtain _ | ⟨c4, l⟩ := l
  case nil => simp [strictDateChars] at h
  obtain _ | ⟨c5, l⟩ := l
  case nil => simp [strictDateChars] at h
  obtain _ | ⟨c6, l⟩ := l
  case nil => simp [strictDateChars] at h
  obtain _ | ⟨c7, l⟩ := l
  case nil => simp [strictDateChars] at h
  obtain _ | ⟨c8, l⟩ := l
  case nil => simp [strictDateChars] at h
  obtain _ | ⟨c9, l⟩ := l
  case nil => simp [strictDateChars] at h
  obtain _ | ⟨c10, l⟩ := l
  case nil => simp [strictDateChars] at h
  obtain _ | ⟨c11, l⟩ := l
  case cons => simp [strictDateChars] at h
  simp only [strictDateChars, Bool.and_eq_true, decide_eq_true_eq] at h
  obtain ⟨⟨⟨⟨⟨⟨⟨⟨⟨hy1, hy2⟩, hy3⟩, hy4⟩, hs1⟩, hs2⟩, hm1⟩, hm2⟩, hd1⟩, hd2⟩ := h
  subst hs1; subst hs2
  exact ⟨c1, c2, c3, c4, c6, c7, c9, c10, rfl, hy1, hy2, hy3, hy4, hm1, hm2, hd1, hd2⟩

theorem jsDateLt_irrefl (a : JSDate) : jsDateLt a a = false := by
  simp [jsDateLt]

/-- Defining equation of `jsDateLt` on explicit constructors. -/
theorem jsDateLt_mk (y1 m1 d1 h1 mi1 s1 y2 m2 d2 h2 mi2 s2 : Nat) :
    jsDateLt ⟨y1, m1, d1, h1, mi1, s1⟩ ⟨y2, m2, d2, h2, mi2, s2⟩ =
      decide (y1 < y2 ∨ (y1 = y2 ∧ (m1 < m2 ∨ (m1 = m2 ∧ (d1 < d2 ∨ (d1 = d2 ∧
        (h1 < h2 ∨ (h1 = h2 ∧ (mi1 < mi2 ∨ (mi1 = mi2 ∧ s1 < s2)))))))))) := rfl

/-- Defining equation of `addOneDay` on an explicit constructor. -/
theorem addOneDay_mk (y m d hh mi ss : Nat) :
    addOneDay ⟨y, m, d, hh, mi, ss⟩ =
      if d + 1 ≤ daysInMonth y m then ⟨y, m, d + 1, hh, mi, ss⟩
      else if m ≥ 12 then ⟨y + 1, 1, 1, hh, mi, ss⟩
      else ⟨y, m + 1, 1, hh, mi, ss⟩ := rfl

theorem addOneDay_ne (dt : JSDate) : addOneDay dt ≠ dt := by
  obtain ⟨y, m, d, hh, mi, ss⟩ := dt
  rw [addOneDay_mk]
  by_cases h1 : d + 1 ≤ daysInMonth y m
  · rw [if_pos h1]
    intro h
    injection h
    omega
  · rw [if_neg h1]
    by_cases h2 : m ≥ 12
    · rw [if_pos h2]
      intro h
      injection h
      omega
    · rw [if_neg h2]
      intro h
      injection h
      omega

theorem jsDateLt_addOneDay (dt : JSDate) : jsDateLt dt (addOneDay dt) = true := by
  obtain ⟨y, m, d, hh, mi, ss⟩ := dt
  rw [addOneDay_mk]
  by_cases h1 : d + 1 ≤ daysInMonth y m
  · rw [if_pos h1, jsDateLt_mk, decide_eq_true_eq]
    omega
  · rw [if_neg h1]
    by_cases h2 : m ≥ 12
    · rw [if_pos h2, jsDateLt_mk, decide_eq_true_eq]
      omega
    · rw [if_neg h2, jsDateLt_mk, decide_eq_true_eq]
      omega

theorem addOneDay_not_lt (dt : JSDate) : jsDateLt (addOneDay dt) dt = false := by
  obtain ⟨y, m, d, hh, mi, ss⟩ := dt
  rw [addOneDay_mk]
  by_cases h1 : d + 1 ≤ daysInMonth y m
  · rw [if_pos h1, jsDateLt_mk]
    simp only [decide_eq_false_iff_not]
    omega
  · rw [if_neg h1]
    by_cases h2 : m ≥ 12
    · rw [if_pos h2, jsDateLt_mk]
      simp only [decide_eq_false_iff_not]
      omega
    · rw [if_neg h2, jsDateLt_mk]
      simp only [decide_eq_false_iff_not]
      omega

theorem jsDateLt_cases (a b : JSDate) :
    jsDateLt a b = true ∨ a = b ∨ jsDateLt b a = true := by
  obtain ⟨y1, m1, d1, h1, mi1, s1⟩ := a
  obtain ⟨y2, m2, d2, h2, mi2, s2⟩ := b
  rw [jsDateLt_mk, jsDateLt_mk]
  simp only [decide_eq_true_eq, JSDate.mk.injEq]
  omega

theorem endAfterDefault_not_lt (s : JSDate) (p : Option JSDate) :
    jsDateLt (endAfterDefault s p) s = false := by
  unfold endAfterDefault
  rcases p with _ | d
  · simp only [ite_self]
    exact addOneDay_not_lt s
  · by_cases hlt : jsDateLt d s = true
    · simp only [hlt, if_true]
      exact addOneDay_not_lt s
    · simp only [hlt, if_false]
      exact Bool.not_eq_true _ ▸ (by simpa using hlt)

theorem storedEndOf_lt (s : JSDate) (p : Option JSDate) :
    jsDateLt s (storedEndOf s p) = true := by
  unfold storedEndOf
  by_cases hm : milestoneOf s p = true
  · rw [if_pos hm]
    exact jsDateLt_addOneDay s
  · rw [if_neg hm]
    unfold milestoneOf at hm
    rw [decide_eq_true_eq] at hm
    rcases jsDateLt_cases s (endAfterDefault s p) with h | h | h
    · exact h
    · exact absurd h hm
    · have h2 := endAfterDefault_not_lt s p
      rw [h] at h2
      cases h2

theorem milestoneOf_iff (s : JSDate) (p : Option JSDate) :
    milestoneOf s p = true ↔ p = some s := by
  unfold milestoneOf
  rw [decide_eq_true_eq]
  constructor
  · intro h
    rcases p with _ | d
    · exfalso
      unfold endAfterDefault at h
      simp only [ite_self] at h
      exact addOneDay_ne s h.symm
    · unfold endAfterDefault at h
      by_cases hlt : jsDateLt d s = true
      · simp only [hlt, if_true] at h
        exact absurd h.symm (addOneDay_ne s)
      · rw [Bool.not_eq_true] at hlt
        simp only [hlt, Bool.false_eq_true, if_false] at h
        rw [← h]
  · intro h
    subst h
    unfold endAfterDefault
    simp [jsDateLt_irrefl]

/-- The stored end of a milestone is start plus one day. -/
theorem storedEndOf_of_milestone {s : JSDate} {p : Option JSDate}
    (h : milestoneOf s p = true) : storedEndOf s p = addOneDay s := by
  unfold storedEndOf
  rw [if_pos h]

/-- When the end is absent, unparseable or earlier than the start, the
stored end is start plus one day. -/
theorem storedEndOf_default {s : JSDate} {p : Option JSDate}
    (h : p = none ∨ ∃ d, p = some d ∧ jsDateLt d s = true) :
    storedEndOf s p = addOneDay s := by
  have he : endAfterDefault s p = addOneDay s := by
    rcases h with rfl | ⟨d, rfl, hlt⟩
    · unfold endAfterDefault
      simp [ite_self]
    · unfold endAfterDefault
      simp [hlt]
  unfold storedEndOf milestoneOf
  rw [he]
  simp [ite_self]

/-- Defining equation of `parseObsidianDate` on a present string. -/
theorem parseObsidianDate_some (g : String → Option JSDate) (v : String) :
    parseObsidianDate g (some v) =
      if jsTrim v = "" then none
      else if strictDateChars (jsTrim v).data = true then parseStrictDate (jsTrim v).data
      else if spaceDateTimeChars (jsTrim v).data = true then
        parseSpaceDateTime (jsTrim v).data
      else g (jsTrim v) := rfl

/-- Defining equation of `formatDateForGantt` on an explicit constructor. -/
theorem formatDateForGantt_mk (y m d hh mi ss : Nat) :
    formatDateForGantt ⟨y, m, d, hh, mi, ss⟩ =
      jsNatToString y ++ "-" ++ pad2 m ++ "-" ++ pad2 d := rfl

/-- C2 counterexample: the strict-pattern string "0999-03-15" denotes a
valid calendar date and parses, but the formatter does not pad the year,
so the round trip returns "999-03-15". -/
theorem format_parse_roundtrip_cex :
    strictDateChars "0999-03-15".data = true ∧
    parseObsidianDate gNone (some "0999-03-15") = some ⟨999, 3, 15, 0, 0, 0⟩ ∧
    formatDateForGantt ⟨999, 3, 15, 0, 0, 0⟩ ≠ "0999-03-15" := by
  refine ⟨by decide, by decide, by decide⟩

/-- C2 (amended): for every string matching the strict `YYYY-MM-DD`
pattern whose `parseObsidianDate` result is a date with a four-digit year
not starting in zero (year at least 1000), the parse is midnight local
time and `formatDateForGantt` reproduces the string exactly. -/
theorem format_parse_roundtrip_amended (g : String → Option JSDate) (s : String)
    (dt : JSDate) (hshape : strictDateChars s.data = true)
    (hparse : parseObsidianDate g (some s) = some dt) (hy : 1000 ≤ dt.year) :
    formatDateForGantt dt = s ∧ dt.hour = 0 ∧ dt.minute = 0 ∧ dt.second = 0 := by
  obtain ⟨y1, y2, y3, y4, m1, m2, d1, d2, hl, hy1, hy2, hy3, hy4, hm1, hm2, hd1, hd2⟩ :=
    strictDateChars_shape hshape
  have hnws : ∀ c ∈ s.data, wsChar c = false := by
    rw [hl]
    intro c hc
    rcases List.mem_cons.mp hc with rfl | hc
    case inl => exact wsChar_of_digit hy1
    rcases List.mem_cons.mp hc with rfl | hc
    case inl => exact wsChar_of_digit hy2
    rcases List.mem_cons.mp hc with rfl | hc
    case inl => exact wsChar_of_digit hy3
    rcases List.mem_cons.mp hc with rfl | hc
    case inl => exact wsChar_of_digit hy4
    rcases List.mem_cons.mp hc with rfl | hc
    case inl => decide
    rcases List.mem_cons.mp hc with rfl | hc
    case inl => exact wsChar_of_digit hm1
    rcases List.mem_cons.mp hc with rfl | hc
    case inl => exact wsChar_of_digit hm2
    rcases List.mem_cons.mp hc with rfl | hc
    case inl => decide
    rcases List.mem_cons.mp hc with rfl | hc
    case inl => exact wsChar_of_digit hd1
    rcases List.mem_cons.mp hc with rfl | hc
    case inl => exact wsChar_of_digit hd2
    cases hc
  have htrim : jsTrim s = s := by
    unfold jsTrim
    rw [trimChars_id hnws]
  have hne : s ≠ "" := by
    intro he
    have h0 : s.data = [] := by rw [he]
    rw [hl] at h0
    cases h0
  have hshape2 : strictDateChars (jsTrim s).data = true := by rw [htrim]; exact hshape
  have hkey : parseObsidianDate g (some s) = parseStrictDate s.data := by
    rw [parseObsidianDate_some, htrim, if_neg hne, if_pos hshape]
  rw [hkey, hl] at hparse
  simp only [parseStrictDate] at hparse
  split at hparse
  · next hcond =>
    rw [Option.some.injEq] at hparse
    subst hparse
    have hyy : 1000 ≤ digitVal y1 * 1000 + digitVal y2 * 100 + digitVal y3 * 10 + digitVal y4 :=
      hy
    refine ⟨?_, rfl, rfl, rfl⟩
    rw [formatDateForGantt_mk]
    rw [jsNatToString_four hy1 hy2 hy3 hy4 hyy, pad2_digits hm1 hm2, pad2_digits hd1 hd2]
    apply string_data_eq
    simp only [String.data_append]
    rw [hl]
    rfl
  · cases hparse

/-- C2 witness: the amended round trip at the concrete string
"2026-03-15". -/
theorem format_parse_roundtrip_amended_witness :
    formatDateForGantt ⟨2026, 3, 15, 0, 0, 0⟩ = "2026-03-15" ∧
    (JSDate.mk 2026 3 15 0 0 0).hour = 0 ∧ (JSDate.mk 2026 3 15 0 0 0).minute = 0 ∧
    (JSDate.mk 2026 3 15 0 0 0).second = 0 :=
  format_parse_roundtrip_amended gNone "2026-03-15" ⟨2026, 3, 15, 0, 0, 0⟩
    (by decide) (by decide) (by decide)

/-- Defining equation of `mapEntry` when the start date parses. -/
theorem mapEntry_some {g : String → Option JSDate} {cfg : TaskMapperConfig}
    {startProp : String} {nameToId : List (String × String)}
    {colorValues : List (String × Nat)} {e : BasesEntry} {s : JSDate}
    (hs : parseObsidianDate g (extractRawValue (e.getValue startProp)) = some s) :
    mapEntry g cfg startProp nameToId colorValues e = some
      { id := makeTaskId e.file.path
        name := labelOf cfg e
        start := formatDateForGantt s
        end_ := formatDateForGantt (storedEndOf s (endResolved g cfg e))
        progress := progressOf cfg e
        dependencies := dependenciesOf cfg nameToId e
        custom_class :=
          if milestoneOf s (endResolved g cfg e) && (colorClassOf cfg colorValues e = "")
          then "gantt-milestone" else colorClassOf cfg colorValues e
        filePath := e.file.path
        isMilestone := milestoneOf s (endResolved g cfg e) } := by
  unfold mapEntry
  rw [hs]

/-- Defining equation of `mapEntry` when the start date does not parse. -/
theorem mapEntry_none {g : String → Option JSDate} {cfg : TaskMapperConfig}
    {startProp : String} {nameToId : List (String × String)}
    {colorValues : List (String × Nat)} {e : BasesEntry}
    (hs : parseObsidianDate g (extractRawValue (e.getValue startProp)) = none) :
    mapEntry g cfg startProp nameToId colorValues e = none := by
  unfold mapEntry
  rw [hs]

theorem insertSorted_perm (le : GanttTask → GanttTask → Bool) (x : GanttTask) :
    ∀ l, (insertSorted le x l).Perm (x :: l) := by
  intro l
  induction l with
  | nil => exact List.Perm.refl _
  | cons y ys ih =>
    unfold insertSorted
    by_cases h : le y x = true
    · rw [if_pos h]
      exact (ih.cons y).trans (List.Perm.swap x y ys)
    · rw [if_neg h]

theorem foldl_insertSorted_perm (le : GanttTask → GanttTask → Bool) :
    ∀ (l acc : List GanttTask),
      (l.foldl (fun acc x => insertSorted le x acc) acc).Perm (acc ++ l) := by
  intro l
  induction l with
  | nil => intro acc; simp
  | cons x xs ih =>
    intro acc
    simp only [List.foldl_cons]
    refine (ih (insertSorted le x acc)).trans ?_
    have h1 : (insertSorted le x acc ++ xs).Perm ((x :: acc) ++ xs) :=
      (insertSorted_perm le x acc).append_right xs
    refine h1.trans ?_
    exact List.perm_middle.symm

theorem sortByStart_perm (l : List GanttTask) : (sortByStart l).Perm l := by
  simpa using foldl_insertSorted_perm (fun a b => jsStrLe a.start b.start) l []

theorem jsMapGet?_eq_some {α : Type} : ∀ {l : List (String × α)} {k : String} {v : α},
    jsMapGet? l k = some v → (k, v) ∈ l := by
  intro l
  induction l with
  | nil => intro k v h; cases h
  | cons p rest ih =>
    intro k v h
    obtain ⟨k0, v0⟩ := p
    unfold jsMapGet? at h
    cases hrec : jsMapGet? rest k with
    | some r =>
      rw [hrec] at h
      rw [Option.some.injEq] at h
      subst h
      exact List.mem_cons_of_mem _ (ih hrec)
    | none =>
      rw [hrec] at h
      by_cases hk : k0 = k
      · rw [if_pos hk] at h
        rw [Option.some.injEq] at h
        subst h
        subst hk
        exact List.mem_cons_self _ _
      · rw [if_neg hk] at h
        cases h

theorem taskMap_lookup {tasks : List GanttTask} {k : String} {t : GanttTask}
    (h : jsMapGet? (tasks.map (fun t => (t.id, t))) k = some t) :
    t ∈ tasks ∧ t.id = k := by
  have hm := jsMapGet?_eq_some h
  rw [List.mem_map] at hm
  obtain ⟨u, hu, he⟩ := hm
  rw [Prod.mk.injEq] at he
  obtain ⟨hid, hut⟩ := he
  subst hut
  exact ⟨hu, hid⟩

theorem sortLoop_mem {tm : List (String × GanttTask)}
    {deps : List (String × List String)} :
    ∀ (fuel : Nat) (sorted : List GanttTask) (placed remaining : List String)
      (t : GanttTask), t ∈ sortLoop tm deps fuel sorted placed remaining →
      t ∈ sorted ∨ ∃ k, jsMapGet? tm k = some t := by
  intro fuel
  induction fuel with
  | zero => intro sorted placed remaining t h; exact Or.inl h
  | succ f ih =>
    intro sorted placed remaining t h
    cases remaining with
    | nil => exact Or.inl h
    | cons r rs =>
      simp only [sortLoop] at h
      split at h
      · rcases List.mem_append.mp h with h | h
        · exact Or.inl h
        · right
          have h2 := (sortByStart_perm _).mem_iff.mp h
          rw [List.mem_filterMap] at h2
          obtain ⟨k, _, hk⟩ := h2
          exact ⟨k, hk⟩
      · rcases ih _ _ _ t h with h | h
        · rcases List.mem_append.mp h with h | h
          · exact Or.inl h
          · right
            have h2 := (sortByStart_perm _).mem_iff.mp h
            rw [List.mem_filterMap] at h2
            obtain ⟨k, _, hk⟩ := h2
            exact ⟨k, hk⟩
        · exact Or.inr h

theorem sortByDependencies_mem {tasks : List GanttTask} {t : GanttTask}
    (h : t ∈ sortByDependencies tasks) : t ∈ tasks := by
  unfold sortByDependencies at h
  split at h
  · exact h
  · rcases sortLoop_mem _ _ _ _ t h with h | h
    · cases h
    · obtain ⟨k, hk⟩ := h
      exact (taskMap_lookup hk).1

theorem mem_mapEntriesToTasks {g : String → Option JSDate} {entries : List BasesEntry}
    {cfg : TaskMapperConfig} {t : GanttTask} (h : t ∈ mapEntriesToTasks g entries cfg) :
    ∃ sp, cfg.startProperty = some sp ∧ ∃ e ∈ entries,
      mapEntry g cfg sp (buildNameToId entries) (buildColorValues cfg entries) e
        = some t := by
  unfold mapEntriesToTasks at h
  cases hsp : cfg.startProperty with
  | none =>
    rw [hsp] at h
    cases h
  | some sp =>
    rw [hsp] at h
    have h2 : t ∈ sortByDependencies (entries.filterMap
        (mapEntry g cfg sp (buildNameToId entries) (buildColorValues cfg entries))) := h
    have h3 := sortByDependencies_mem h2
    rw [List.mem_filterMap] at h3
    obtain ⟨e, he, hm⟩ := h3
    exact ⟨sp, rfl, e, he, hm⟩

/-- C1: every task produced by `mapEntriesToTasks` stores a start and an
end that format two dates with end strictly after start (so end >= start);
and whenever the raw end value is absent, unparseable, or parses earlier
than the parsed start, the stored end is exactly start plus one day. -/
theorem mapEntriesToTasks_end_ge_start (g : String → Option JSDate)
    (entries : List BasesEntry) (cfg : TaskMapperConfig) :
    (∀ t ∈ mapEntriesToTasks g entries cfg, ∃ ds de : JSDate,
      t.start = formatDateForGantt ds ∧ t.end_ = formatDateForGantt de ∧
      jsDateLt ds de = true) ∧
    (∀ (sp : String) (nameToId : List (String × String))
      (colorValues : List (String × Nat)) (e : BasesEntry) (s : JSDate) (t : GanttTask),
      parseObsidianDate g (extractRawValue (e.getValue sp)) = some s →
      (endResolved g cfg e = none ∨
        ∃ d, endResolved g cfg e = some d ∧ jsDateLt d s = true) →
      mapEntry g cfg sp nameToId colorValues e = some t →
      t.start = formatDateForGantt s ∧ t.end_ = formatDateForGantt (addOneDay s)) := by
  constructor
  · intro t ht
    obtain ⟨sp, hsp, e, he, hm⟩ := mem_mapEntriesToTasks ht
    cases hs : parseObsidianDate g (extractRawValue (e.getValue sp)) with
    | none =>
      rw [mapEntry_none hs] at hm
      cases hm
    | some s =>
      rw [mapEntry_some hs, Option.some.injEq] at hm
      subst hm
      exact ⟨s, storedEndOf s (endResolved g cfg e), rfl, rfl, storedEndOf_lt s _⟩
  · intro sp nameToId colorValues e s t hs hcond hm
    rw [mapEntry_some hs, Option.some.injEq] at hm
    subst hm
    refine ⟨rfl, ?_⟩
    show formatDateForGantt (storedEndOf s (endResolved g cfg e))
      = formatDateForGantt (addOneDay s)
    rw [storedEndOf_default hcond]

/-- C1 witness: the claim instantiated on a record with a start date and
an absent end date. -/
theorem mapEntriesToTasks_end_ge_start_witness :
    (∃ ds de : JSDate, taskA.start = formatDateForGantt ds ∧
      taskA.end_ = formatDateForGantt de ∧ jsDateLt ds de = true) ∧
    (taskA.start = formatDateForGantt ⟨2026, 3, 15, 0, 0, 0⟩ ∧
      taskA.end_ = formatDateForGantt (addOneDay ⟨2026, 3, 15, 0, 0, 0⟩)) := by
  constructor
  · exact (mapEntriesToTasks_end_ge_start gNone [entA] cfgA).1 taskA (by decide)
  · exact (mapEntriesToTasks_end_ge_start gNone [entA] cfgA).2 "note.start"
      (buildNameToId [entA]) (buildColorValues cfgA [entA]) entA ⟨2026, 3, 15, 0, 0, 0⟩
      taskA (by decide) (Or.inl (by decide)) (by decide)

/-- C4 counterexample: a record whose start and end format to the same
`YYYY-MM-DD` string but denote different instants (midnight versus noon)
is NOT marked a milestone — the implementation compares exact instants,
not the canonical format. -/
theorem milestone_format_equality_cex :
    parseObsidianDate gNone (some "2026-03-15") = some ⟨2026, 3, 15, 0, 0, 0⟩ ∧
    parseObsidianDate gNone (some "2026-03-15 12:00") = some ⟨2026, 3, 15, 12, 0, 0⟩ ∧
    formatDateForGantt ⟨2026, 3, 15, 0, 0, 0⟩ = formatDateForGantt ⟨2026, 3, 15, 12, 0, 0⟩ ∧
    (mapEntriesToTasks gNone [entNoon] cfgA).map (fun t => t.isMilestone) = [false] := by
  refine ⟨by decide, by decide, by decide, by decide⟩

/-- C4 (amended): a mapped task is a milestone exactly when the raw end
value parses to the very same instant as the parsed start (`getTime()`
equality, which is finer than equality of the canonical format); a
milestone still stores an end of start plus one day while the flag is
preserved. -/
theorem milestone_iff_exact_instant (g : String → Option JSDate)
    (cfg : TaskMapperConfig) (sp : String) (nameToId : List (String × String))
    (colorValues : List (String × Nat)) (e : BasesEntry) (s : JSDate) (t : GanttTask)
    (hs : parseObsidianDate g (extractRawValue (e.getValue sp)) = some s)
    (hm : mapEntry g cfg sp nameToId colorValues e = some t) :
    (t.isMilestone = true ↔ endResolved g cfg e = some s) ∧
    (t.isMilestone = true → t.end_ = formatDateForGantt (addOneDay s)) := by
  rw [mapEntry_some hs, Option.some.injEq] at hm
  subst hm
  constructor
  · show milestoneOf s (endResolved g cfg e) = true ↔ _
    exact milestoneOf_iff s (endResolved g cfg e)
  · intro hmil
    show formatDateForGantt (storedEndOf s (endResolved g cfg e)) = _
    rw [storedEndOf_of_milestone hmil]

/-- C4 witness: the amended claim on a record whose start and end parse to
the same instant. -/
theorem milestone_iff_exact_instant_witness :
    (taskMil.isMilestone = true ↔
      endResolved gNone cfgA entMil = some ⟨2026, 3, 15, 0, 0, 0⟩) ∧
    (taskMil.isMilestone = true →
      taskMil.end_ = formatDateForGantt (addOneDay ⟨2026, 3, 15, 0, 0, 0⟩)) :=
  milestone_iff_exact_instant gNone cfgA "note.start" (buildNameToId [entMil])
    (buildColorValues cfgA [entMil]) entMil ⟨2026, 3, 15, 0, 0, 0⟩ taskMil
    (by decide) (by decide)

theorem clamp_bounds (num : JSNum) :
    jsNumLe jsNumZero (jsMax jsNumZero (jsMin jsNumHundred num)) = true ∧
    jsNumLe (jsMax jsNumZero (jsMin jsNumHundred num)) jsNumHundred = true := by
  obtain ⟨n, d⟩ := num
  simp only [jsMax, jsMin, jsNumZero, jsNumHundred, jsNumLe]
  split <;> split <;> simp_all

/-- Defining equation of `clampProgress` on a present raw value. -/
theorem clampProgress_some (r : String) :
    clampProgress (some r) =
      match jsParseFloat r with
      | none => jsNumZero
      | some num => jsMax jsNumZero (jsMin jsNumHundred num) := rfl

theorem clampProgress_bounds (r : Option String) :
    jsNumLe jsNumZero (clampProgress r) = true ∧
    jsNumLe (clampProgress r) jsNumHundred = true := by
  cases r with
  | none => exact ⟨rfl, rfl⟩
  | some raw =>
    rw [clampProgress_some]
    cases hn : jsParseFloat raw with
    | none => exact ⟨rfl, rfl⟩
    | some num => exact clamp_bounds num

theorem progressOf_bounds (cfg : TaskMapperConfig) (e : BasesEntry) :
    jsNumLe jsNumZero (progressOf cfg e) = true ∧
    jsNumLe (progressOf cfg e) jsNumHundred = true := by
  unfold progressOf
  by_cases hsp : cfg.showProgress = true
  · rw [if_pos hsp]
    cases hp : cfg.progressProperty with
    | none => exact ⟨rfl, rfl⟩
    | some p => exact clampProgress_bounds (extractRawValue (e.getValue p))
  · rw [if_neg hsp]
    exact ⟨rfl, rfl⟩

/-- C7 (amended): a mapped task has a progress between 0 and 100; it is 0
unless progress display is enabled and the progress role resolves to a
value `parseFloat` accepts, in which case it is the raw parsed value
clamped to [0, 100] — a fraction stays a fraction, it is not rounded to
an integer. -/
theorem progress_clamped_amended (g : String → Option JSDate)
    (entries : List BasesEntry) (cfg : TaskMapperConfig) :
    (∀ t ∈ mapEntriesToTasks g entries cfg,
      jsNumLe jsNumZero t.progress = true ∧ jsNumLe t.progress jsNumHundred = true) ∧
    (∀ e : BasesEntry, cfg.showProgress = false → progressOf cfg e = jsNumZero) ∧
    (∀ e : BasesEntry, cfg.progressProperty = none → progressOf cfg e = jsNumZero) ∧
    (∀ (e : BasesEntry) (p raw : String), cfg.progressProperty = some p →
      extractRawValue (e.getValue p) = some raw → jsParseFloat raw = none →
      progressOf cfg e = jsNumZero) ∧
    (∀ (e : BasesEntry) (p raw : String) (num : JSNum), cfg.showProgress = true →
      cfg.progressProperty = some p → extractRawValue (e.getValue p) = some raw →
      jsParseFloat raw = some num →
      progressOf cfg e = jsMax jsNumZero (jsMin jsNumHundred num)) := by
  refine ⟨?_, ?_, ?_, ?_, ?_⟩
  · intro t ht
    obtain ⟨sp, hsp, e, he, hm⟩ := mem_mapEntriesToTasks ht
    cases hs : parseObsidianDate g (extractRawValue (e.getValue sp)) with
    | none =>
      rw [mapEntry_none hs] at hm
      cases hm
    | some s =>
      rw [mapEntry_some hs, Option.some.injEq] at hm
      subst hm
      exact progressOf_bounds cfg e
  · intro e hns
    unfold progressOf
    rw [hns]
    rfl
  · intro e hp
    unfold progressOf
    rw [hp]
    split <;> rfl
  · intro e p raw hp hr hn
    unfold progressOf
    rw [hp]
    split
    · show clampProgress (extractRawValue (e.getValue p)) = jsNumZero
      rw [hr, clampProgress_some, hn]
    · rfl
  · intro e p raw num hsp hp hr hn
    unfold progressOf
    rw [hsp, hp]
    show clampProgress (extractRawValue (e.getValue p)) = _
    rw [hr, clampProgress_some, hn]

/-- C7 counterexample: a record with progress "42.5" maps to a task whose
stored progress is the non-integer 42.5 (the value is clamped, never
rounded), refuting "progress is an integer in [0, 100]". -/
theorem progress_not_integer_cex :
    (mapEntriesToTasks gNone [entProg] cfgProg).map (fun t => t.progress)
      = [⟨425, 10⟩] ∧
    jsNumIsInt ⟨425, 10⟩ = false ∧ ∀ n : Int, (425 : Int) ≠ n * 10 := by
  refine ⟨by decide, by decide, ?_⟩
  intro n h
  omega

/-- C7 witness: the amended claim on the record with progress "42.5". -/
theorem progress_clamped_amended_witness :
    (jsNumLe jsNumZero taskProg.progress = true ∧
      jsNumLe taskProg.progress jsNumHundred = true) ∧
    progressOf cfgProg entProg = jsMax jsNumZero (jsMin jsNumHundred ⟨425, 10⟩) := by
  constructor
  · exact (progress_clamped_amended gNone [entProg] cfgProg).1 taskProg (by decide)
  · exact (progress_clamped_amended gNone [entProg] cfgProg).2.2.2.2 entProg
      "note.prog" "42.5" ⟨425, 10⟩ rfl (by decide) (by decide) (by decide)

theorem matchWikiAt_brackets {l : List Char} {pr : List Char × Nat}
    (h : matchWikiAt l = some pr) : listStartsWith "[[".data l = true := by
  cases l with
  | nil => cases h
  | cons a l2 =>
    cases l2 with
    | nil => cases h
    | cons b rest =>
      simp only [matchWikiAt] at h
      by_cases hab : (a = '[' && b = '[') = true
      · rw [Bool.and_eq_true, decide_eq_true_eq, decide_eq_true_eq] at hab
        obtain ⟨ha, hb⟩ := hab
        subst ha
        subst hb
        rfl
      · rw [if_neg hab] at h
        cases h

theorem scanWikiAux_nil_of_no_brackets :
    ∀ (fuel : Nat) (l : List Char), listContainsSeq "[[".data l = false →
      scanWikiAux fuel l = [] := by
  intro fuel
  induction fuel with
  | zero => intro l h; rfl
  | succ f ih =>
    intro l h
    cases l with
    | nil => rfl
    | cons c rest =>
      unfold listContainsSeq at h
      rw [Bool.or_eq_false_iff] at h
      obtain ⟨h1, h2⟩ := h
      unfold scanWikiAux
      cases hm : matchWikiAt (c :: rest) with
      | some pr =>
        have hb := matchWikiAt_brackets hm
        rw [hb] at h1
        cases h1
      | none => exact ih rest h2

theorem scanWiki_nil_of_no_brackets {raw : String}
    (h : jsIncludes raw "[[" = false) : scanWiki raw.data = [] :=
  scanWikiAux_nil_of_no_brackets _ _ h

/-- C6 (amended): the plain-name fallback activates exactly when the raw
text contains no occurrence of the double open bracket (in which case the
wiki-link scan necessarily found zero links); when the text does contain a
double open bracket — even a malformed one with zero complete links — the
comma-separated fallback never runs.  Unresolvable names are dropped by
`filterMap`, and dependency resolution never makes `mapEntry` reject a
record: a record is skipped only when its start date does not parse. -/
theorem dependency_fallback_amended (nameToId : List (String × String)) (raw : String) :
    (jsIncludes raw "[[" = true →
      resolveDependencies nameToId raw
        = String.intercalate ", " (wikiResolved nameToId raw)) ∧
    (jsIncludes raw "[[" = false →
      wikiResolved nameToId raw = [] ∧
      resolveDependencies nameToId raw
        = String.intercalate ", " (plainResolved nameToId raw)) ∧
    (∀ (g : String → Option JSDate) (cfg : TaskMapperConfig) (sp : String)
      (n : List (String × String)) (c : List (String × Nat)) (e : BasesEntry),
      (mapEntry g cfg sp n c e).isSome
        = (parseObsidianDate g (extractRawValue (e.getValue sp))).isSome) := by
  refine ⟨?_, ?_, ?_⟩
  · intro h
    unfold resolveDependencies
    rw [h]
    simp
  · intro h
    have hw : wikiResolved nameToId raw = [] := by
      unfold wikiResolved
      rw [scanWiki_nil_of_no_brackets h]
      rfl
    refine ⟨hw, ?_⟩
    unfold resolveDependencies
    rw [hw, h]
    simp
  · intro g cfg sp n c e
    cases hs : parseObsidianDate g (extractRawValue (e.getValue sp)) with
    | none =>
      rw [mapEntry_none hs]
      rfl
    | some s =>
      rw [mapEntry_some hs]
      rfl

/-- C6 counterexample: the text "[[, TaskA" yields zero wiki links, so by
the claim the comma fallback should resolve the plain name "TaskA"; the
implementation additionally requires the absence of the substring of two
open brackets, so it resolves nothing. -/
theorem dependency_fallback_cex :
    scanWiki "[[, TaskA".data = [] ∧
    jsIncludes "[[, TaskA" "[[" = true ∧
    specResolveDependencies (buildNameToId [entTaskA, entDepB]) "[[, TaskA"
      = "TaskA.md" ∧
    resolveDependencies (buildNameToId [entTaskA, entDepB]) "[[, TaskA" = "" ∧
    (mapEntriesToTasks gNone [entTaskA, entDepB] cfgDep).map (fun t => t.dependencies)
      = ["", ""] := by
  refine ⟨by decide, by decide, by decide, by decide, by decide⟩

/-- C6 witness: the amended claim at a proper wiki link, a plain name, and
a record whose mapping succeeds regardless of its dependency text. -/
theorem dependency_fallback_amended_witness :
    (resolveDependencies (buildNameToId [entTaskA, entDepC]) "[[TaskA]]"
      = String.intercalate ", "
          (wikiResolved (buildNameToId [entTaskA, entDepC]) "[[TaskA]]")) ∧
    (wikiResolved (buildNameToId [entTaskA, entDepC]) "TaskA" = [] ∧
      resolveDependencies (buildNameToId [entTaskA, entDepC]) "TaskA"
        = String.intercalate ", "
            (plainResolved (buildNameToId [entTaskA, entDepC]) "TaskA")) ∧
    (mapEntry gNone cfgDep "note.start" (buildNameToId [entTaskA, entDepC])
        (buildColorValues cfgDep [entTaskA, entDepC]) entDepC).isSome
      = (parseObsidianDate gNone
          (extractRawValue (entDepC.getValue "note.start"))).isSome :=
  ⟨(dependency_fallback_amended (buildNameToId [entTaskA, entDepC]) "[[TaskA]]").1
      (by decide),
    (dependency_fallback_amended (buildNameToId [entTaskA, entDepC]) "TaskA").2.1
      (by decide),
    (dependency_fallback_amended (buildNameToId [entTaskA, entDepC]) "TaskA").2.2
      gNone cfgDep "note.start" (buildNameToId [entTaskA, entDepC])
      (buildColorValues cfgDep [entTaskA, entDepC]) entDepC⟩

theorem find?_key_cons {α : Type} (target k0 : String) (v0 : α) (l : List (String × α)) :
    ((k0, v0) :: l).find? (fun q => q.1 == target)
      = if (k0 == target) = true then some (k0, v0)
        else l.find? (fun q => q.1 == target) := by
  by_cases h : (k0 == target) = true
  · rw [if_pos h]
    exact List.find?_cons_of_pos l (by simpa using h)
  · rw [if_neg h]
    exact List.find?_cons_of_neg l (by simpa using h)

theorem find?_keyed_other {α : Type} (key target : String) (f : α → α)
    (hne : target ≠ key) :
    ∀ l : List (String × α),
      (l.map (fun q => if q.1 == key then (q.1, f q.2) else q)).find?
          (fun q => q.1 == target)
        = l.find? (fun q => q.1 == target) := by
  intro l
  induction l with
  | nil => rfl
  | cons q rest ih =>
    obtain ⟨k0, v0⟩ := q
    simp only [List.map_cons]
    by_cases hk : (k0 == key) = true
    · rw [if_pos hk]
      have hk2 : k0 = key := by simpa using hk
      have ht : (k0 == target) = false :=
        beq_eq_false_iff_ne.mpr (fun he => hne (he.symm.trans hk2))
      rw [find?_key_cons, find?_key_cons, ht]
      simp only [Bool.false_eq_true, if_false]
      exact ih
    · rw [if_neg hk]
      rw [find?_key_cons, find?_key_cons]
      by_cases ht : (k0 == target) = true
      · rw [ht]
        simp
      · rw [Bool.not_eq_true] at ht
        rw [ht]
        simp only [Bool.false_eq_true, if_false]
        exact ih

theorem find?_keyed_self {α : Type} (key : String) (f : α → α) :
    ∀ (l : List (String × α)) (pr : String × α),
      l.find? (fun q => q.1 == key) = some pr →
      (l.map (fun q => if q.1 == key then (q.1, f q.2) else q)).find?
          (fun q => q.1 == key)
        = some (pr.1, f pr.2) := by
  intro l
  induction l with
  | nil => intro pr h; cases h
  | cons q rest ih =>
    obtain ⟨k0, v0⟩ := q
    intro pr h
    rw [find?_key_cons] at h
    simp only [List.map_cons]
    by_cases hk : (k0 == key) = true
    · rw [if_pos hk] at h
      rw [Option.some.injEq] at h
      subst h
      rw [if_pos hk, find?_key_cons, if_pos hk]
    · rw [if_neg hk] at h
      rw [if_neg hk, find?_key_cons, if_neg hk]
      exact ih pr h

theorem find?_append_none {α : Type} (p : α → Bool) :
    ∀ (l1 l2 : List α), l1.find? p = none → (l1 ++ l2).find? p = l2.find? p := by
  intro l1
  induction l1 with
  | nil => intro l2 h; rfl
  | cons a rest ih =>
    intro l2 h
    by_cases hp : p a = true
    · rw [List.find?_cons_of_pos _ hp] at h
      cases h
    · rw [List.find?_cons_of_neg _ hp] at h
      rw [List.cons_append, List.find?_cons_of_neg _ hp]
      exact ih l2 h

theorem find?_append_some {α : Type} (p : α → Bool) :
    ∀ (l1 l2 : List α) (a : α), l1.find? p = some a → (l1 ++ l2).find? p = some a := by
  intro l1
  induction l1 with
  | nil => intro l2 a h; cases h
  | cons b rest ih =>
    intro l2 a h
    by_cases hp : p b = true
    · rw [List.find?_cons_of_pos _ hp] at h
      rw [List.cons_append, List.find?_cons_of_pos _ hp]
      exact h
    · rw [List.find?_cons_of_neg _ hp] at h
      rw [List.cons_append, List.find?_cons_of_neg _ hp]
      exact ih l2 a h

theorem fmGet_setKey_self (fm : Frontmatter) (k : String) (v : FMVal) :
    fmGet (setKey fm k v) k = some v := by
  unfold setKey
  by_cases ha : fm.any (fun p => p.1 == k) = true
  · rw [if_pos ha]
    have hex : ∃ x ∈ fm, ((fun p => p.1 == k) x) = true := by
      simpa [List.any_eq_true] using ha
    obtain ⟨x, hx, hpx⟩ := hex
    cases hf : fm.find? (fun p => p.1 == k) with
    | none =>
      rw [List.find?_eq_none] at hf
      exact absurd hpx (hf x hx)
    | some pr =>
      unfold fmGet
      rw [find?_keyed_self k (fun _ => v) fm pr hf]
      rfl
  · rw [if_neg ha]
    have hnone : fm.find? (fun p => p.1 == k) = none := by
      rw [List.find?_eq_none]
      intro x hx hpx
      exact ha (List.any_eq_true.mpr ⟨x, hx, hpx⟩)
    unfold fmGet
    rw [find?_append_none _ fm [(k, v)] hnone]
    rw [find?_key_cons]
    simp

theorem fmGet_setKey_other (fm : Frontmatter) (k : String) (v : FMVal) (k2 : String)
    (hne : k2 ≠ k) : fmGet (setKey fm k v) k2 = fmGet fm k2 := by
  unfold setKey
  by_cases ha : fm.any (fun p => p.1 == k) = true
  · rw [if_pos ha]
    unfold fmGet
    rw [find?_keyed_other k k2 (fun _ => v) hne fm]
  · rw [if_neg ha]
    unfold fmGet
    cases hf : fm.find? (fun p => p.1 == k2) with
    | none =>
      rw [find?_append_none _ fm [(k, v)] hf]
      have hh : (k == k2) = false := beq_eq_false_iff_ne.mpr (fun he => hne he.symm)
      rw [find?_key_cons, hh]
      simp
    | some pr =>
      rw [find?_append_some _ fm [(k, v)] pr hf]

theorem writeFrontmatter_missing {v : Vault} {path : String}
    {u : List (String × FMVal)} (h : vaultGet v path = none) :
    writeFrontmatter v path u = v := by
  unfold writeFrontmatter
  rw [h]

theorem writeFrontmatter_other {v : Vault} {path : String} {u : List (String × FMVal)}
    {p : String} (hne : p ≠ path) :
    vaultGet (writeFrontmatter v path u) p = vaultGet v p := by
  unfold writeFrontmatter
  cases hv : vaultGet v path with
  | none => rfl
  | some fm =>
    unfold vaultGet
    rw [find?_keyed_other path p (fun fm => applyUpdates fm u) hne v]

theorem writeFrontmatter_self {v : Vault} {path : String} {u : List (String × FMVal)}
    {fm : Frontmatter} (h : vaultGet v path = some fm) :
    vaultGet (writeFrontmatter v path u) path = some (applyUpdates fm u) := by
  unfold writeFrontmatter
  rw [h]
  unfold vaultGet at h ⊢
  cases hf : v.find? (fun q => q.1 == path) with
  | none =>
    rw [hf] at h
    cases h
  | some pr =>
    rw [hf] at h
    simp only [Option.map_some'] at h
    rw [Option.some.injEq] at h
    rw [find?_keyed_self path (fun fm => applyUpdates fm u) v pr hf]
    simp [h]

/-- One-update `applyUpdates` is a single assignment. -/
theorem applyUpdates_single (fm : Frontmatter) (k : String) (v : FMVal) :
    applyUpdates fm [(k, v)] = setKey fm k v := rfl

/-- Reduction of the progress callback when everything is wired up. -/
theorem on_progress_change_eq {taskMap : List (String × GanttTask)}
    {cfg : TaskMapperConfig} {v : Vault} {taskId : String} {progress : JSNum}
    {t : GanttTask} {pid : String} (ht : jsMapGet? taskMap taskId = some t)
    (hp : cfg.progressProperty = some pid) :
    on_progress_change true taskMap cfg v taskId progress
      = writeFrontmatter v t.filePath
          [(extractPropertyName pid, FMVal.num (jsRound progress))] := by
  unfold on_progress_change
  rw [ht, hp]
  rfl

/-- The progress callback does nothing when progress display is off. -/
theorem on_progress_change_off {taskMap : List (String × GanttTask)}
    {cfg : TaskMapperConfig} {v : Vault} {taskId : String} {progress : JSNum} :
    on_progress_change false taskMap cfg v taskId progress = v := rfl

/-- The progress callback does nothing when no progress role is mapped. -/
theorem on_progress_change_noprop {taskMap : List (String × GanttTask)}
    {cfg : TaskMapperConfig} {v : Vault} {taskId : String} {progress : JSNum}
    {t : GanttTask} (ht : jsMapGet? taskMap taskId = some t)
    (hp : cfg.progressProperty = none) :
    on_progress_change true taskMap cfg v taskId progress = v := by
  unfold on_progress_change
  rw [ht, hp]
  rfl

/-- C8: a progress edit writes exactly the mapped progress field of the
record behind the edited task: a missing record makes the write a silent
no-op; every other record keeps its frontmatter; within the addressed
record the mapped progress field becomes the rounded progress and every
other field is unchanged; and with progress display off or no progress
role mapped nothing at all happens. -/
theorem on_progress_change_frame (showProgress : Bool)
    (taskMap : List (String × GanttTask)) (cfg : TaskMapperConfig) (v : Vault)
    (taskId : String) (progress : JSNum) (t : GanttTask)
    (ht : jsMapGet? taskMap taskId = some t) :
    (vaultGet v t.filePath = none →
      on_progress_change showProgress taskMap cfg v taskId progress = v) ∧
    (∀ p, p ≠ t.filePath →
      vaultGet (on_progress_change showProgress taskMap cfg v taskId progress) p
        = vaultGet v p) ∧
    (showProgress = false ∨ cfg.progressProperty = none →
      on_progress_change showProgress taskMap cfg v taskId progress = v) ∧
    (∀ pid fm, showProgress = true → cfg.progressProperty = some pid →
      vaultGet v t.filePath = some fm →
      vaultGet (on_progress_change showProgress taskMap cfg v taskId progress)
          t.filePath
        = some (setKey fm (extractPropertyName pid)
            (FMVal.num (jsRound progress))) ∧
      fmGet (setKey fm (extractPropertyName pid) (FMVal.num (jsRound progress)))
          (extractPropertyName pid)
        = some (FMVal.num (jsRound progress)) ∧
      ∀ k, k ≠ extractPropertyName pid →
        fmGet (setKey fm (extractPropertyName pid) (FMVal.num (jsRound progress))) k
          = fmGet fm k) := by
  refine ⟨?_, ?_, ?_, ?_⟩
  · intro hmiss
    cases showProgress with
    | false => exact on_progress_change_off
    | true =>
      cases hp : cfg.progressProperty with
      | none => exact on_progress_change_noprop ht hp
      | some pid =>
        rw [on_progress_change_eq ht hp]
        exact writeFrontmatter_missing hmiss
  · intro p hne
    cases showProgress with
    | false => rw [on_progress_change_off]
    | true =>
      cases hp : cfg.progressProperty with
      | none => rw [on_progress_change_noprop ht hp]
      | some pid =>
        rw [on_progress_change_eq ht hp]
        exact writeFrontmatter_other hne
  · intro hoff
    rcases hoff with hoff | hoff
    · subst hoff
      exact on_progress_change_off
    · cases showProgress with
      | false => exact on_progress_change_off
      | true => exact on_progress_change_noprop ht hoff
  · intro pid fm hsp hp hfm
    subst hsp
    refine ⟨?_, fmGet_setKey_self fm _ _, fun k hk => fmGet_setKey_other fm _ _ k hk⟩
    rw [on_progress_change_eq ht hp]
    rw [writeFrontmatter_self hfm]
    rw [applyUpdates_single]

/-- C8 witness: the frame claim on a concrete two-record vault. -/
theorem on_progress_change_frame_witness :
    (vaultGet vaultEx taskP.filePath = none →
      on_progress_change true tmEx cfgProg vaultEx "P.md" ⟨425, 10⟩ = vaultEx) ∧
    (∀ p, p ≠ taskP.filePath →
      vaultGet (on_progress_change true tmEx cfgProg vaultEx "P.md" ⟨425, 10⟩) p
        = vaultGet vaultEx p) ∧
    (true = false ∨ cfgProg.progressProperty = none →
      on_progress_change true tmEx cfgProg vaultEx "P.md" ⟨425, 10⟩ = vaultEx) ∧
    (∀ pid fm, true = true → cfgProg.progressProperty = some pid →
      vaultGet vaultEx taskP.filePath = some fm →
      vaultGet (on_progress_change true tmEx cfgProg vaultEx "P.md" ⟨425, 10⟩)
          taskP.filePath
        = some (setKey fm (extractPropertyName pid) (FMVal.num (jsRound ⟨425, 10⟩))) ∧
      fmGet (setKey fm (extractPropertyName pid) (FMVal.num (jsRound ⟨425, 10⟩)))
          (extractPropertyName pid)
        = some (FMVal.num (jsRound ⟨425, 10⟩)) ∧
      ∀ k, k ≠ extractPropertyName pid →
        fmGet (setKey fm (extractPropertyName pid) (FMVal.num (jsRound ⟨425, 10⟩))) k
          = fmGet fm k) :=
  on_progress_change_frame true tmEx cfgProg vaultEx "P.md" ⟨425, 10⟩ taskP (by decide)

/-- Equation of `autoDetectProperties` on a nonempty entry list. -/
theorem autoDetectProperties_cons (allProps : List String) (e : BasesEntry)
    (rest : List BasesEntry) :
    autoDetectProperties allProps (e :: rest) =
      ⟨detectStart (classifyProps e allProps).1,
        detectEnd (classifyProps e allProps).1
          (detectStart (classifyProps e allProps).1),
        findByKeywords (classifyProps e allProps).2.2 depKeywords,
        findByKeywords (classifyProps e allProps).2.1 progressKeywords,
        findByKeywords (classifyProps e allProps).2.2 colorKeywords⟩ := rfl

theorem mem_classifyProps_date {e : BasesEntry} :
    ∀ {props : List String} {p : String}, p ∈ (classifyProps e props).1 →
      ∃ s, e.getValue p = Value.dateV s := by
  intro props
  induction props with
  | nil => intro p h; cases h
  | cons q rest ih =>
    intro p h
    unfold classifyProps at h
    cases hv : e.getValue q with
    | jsNull =>
      rw [hv] at h
      exact ih h
    | dateV s =>
      rw [hv] at h
      rcases List.mem_cons.mp h with rfl | h
      · exact ⟨s, hv⟩
      · exact ih h
    | nullValue =>
      rw [hv] at h
      exact ih h
    | numV s =>
      rw [hv] at h
      exact ih h
    | strV s =>
      rw [hv] at h
      exact ih h

theorem mem_classifyProps_num {e : BasesEntry} :
    ∀ {props : List String} {p : String}, p ∈ (classifyProps e props).2.1 →
      ∃ s, e.getValue p = Value.numV s := by
  intro props
  induction props with
  | nil => intro p h; cases h
  | cons q rest ih =>
    intro p h
    unfold classifyProps at h
    cases hv : e.getValue q with
    | jsNull =>
      rw [hv] at h
      exact ih h
    | dateV s =>
      rw [hv] at h
      exact ih h
    | nullValue =>
      rw [hv] at h
      exact ih h
    | numV s =>
      rw [hv] at h
      rcases List.mem_cons.mp h with rfl | h
      · exact ⟨s, hv⟩
      · exact ih h
    | strV s =>
      rw [hv] at h
      exact ih h

theorem mem_classifyProps_str {e : BasesEntry} :
    ∀ {props : List String} {p : String}, p ∈ (classifyProps e props).2.2 →
      e.getValue p = Value.nullValue ∨ ∃ s, e.getValue p = Value.strV s := by
  intro props
  induction props with
  | nil => intro p h; cases h
  | cons q rest ih =>
    intro p h
    unfold classifyProps at h
    cases hv : e.getValue q with
    | jsNull =>
      rw [hv] at h
      exact ih h
    | dateV s =>
      rw [hv] at h
      exact ih h
    | nullValue =>
      rw [hv] at h
      rcases List.mem_cons.mp h with rfl | h
      · exact Or.inl hv
      · exact ih h
    | numV s =>
      rw [hv] at h
      exact ih h
    | strV s =>
      rw [hv] at h
      rcases List.mem_cons.mp h with rfl | h
      · exact Or.inr ⟨s, hv⟩
      · exact ih h

theorem findByKeywords_mem {props kws : List String} {p : String}
    (h : findByKeywords props kws = some p) : p ∈ props :=
  List.mem_of_find?_eq_some h

theorem detectStart_mem {dateProps : List String} {p : String}
    (h : detectStart dateProps = some p) : p ∈ dateProps := by
  unfold detectStart at h
  cases hk : findByKeywords dateProps startKeywords with
  | some s =>
    rw [hk] at h
    rw [Option.some.injEq] at h
    subst h
    exact findByKeywords_mem hk
  | none =>
    rw [hk] at h
    cases dateProps with
    | nil => cases h
    | cons a l =>
      have h2 : some a = some p := h
      rw [Option.some.injEq] at h2
      subst h2
      exact List.mem_cons_self _ _

theorem detectEnd_mem {dateProps : List String} {s1 : Option String} {p : String}
    (h : detectEnd dateProps s1 = some p) : p ∈ dateProps := by
  unfold detectEnd at h
  cases hk : findByKeywords dateProps endKeywords with
  | some s =>
    rw [hk] at h
    rw [Option.some.injEq] at h
    subst h
    exact findByKeywords_mem hk
  | none =>
    rw [hk] at h
    have h2 : (if dateProps.length > 1 then
        dateProps.find? (fun q => !(s1 = some q)) else none) = some p := h
    by_cases hl : dateProps.length > 1
    · rw [if_pos hl] at h2
      exact List.mem_of_find?_eq_some h2
    · rw [if_neg hl] at h2
      cases h2

theorem detectEnd_positional_ne {dateProps : List String} {s1 : Option String}
    {p : String} (hk : findByKeywords dateProps endKeywords = none)
    (h : detectEnd dateProps s1 = some p) : s1 ≠ some p := by
  unfold detectEnd at h
  rw [hk] at h
  have h2 : (if dateProps.length > 1 then
      dateProps.find? (fun q => !(s1 = some q)) else none) = some p := h
  by_cases hl : dateProps.length > 1
  · rw [if_pos hl] at h2
    have h3 := List.find?_some h2
    simpa using h3
  · rw [if_neg hl] at h2
    cases h2

/-- C9 counterexample: a single date-like property whose normalized name
"startend" contains both a start keyword and an end keyword is assigned to
BOTH the start role and the end role in the same pass. -/
theorem autoDetect_role_overlap_cex :
    (autoDetectProperties ["note.startend"] [entSE]).start = some "note.startend" ∧
    (autoDetectProperties ["note.startend"] [entSE]).end_ = some "note.startend" := by
  refine ⟨by decide, by decide⟩

/-- C9 (amended): roles whose pools carry different value kinds can never
share a field — the progress role (numeric pool) is always distinct from
every other role, and the date roles are distinct from the textual roles;
moreover the positional end fallback picks a property different from the
detected start.  But within one pool, overlapping keyword matches can
assign a single field to two roles, so the exclusivity in the claim fails
in general. -/
theorem autoDetect_role_amended (props : List String) (entries : List BasesEntry) :
    (∀ p, (autoDetectProperties props entries).progress = some p →
      (autoDetectProperties props entries).start ≠ some p ∧
      (autoDetectProperties props entries).end_ ≠ some p ∧
      (autoDetectProperties props entries).dependencies ≠ some p ∧
      (autoDetectProperties props entries).colorBy ≠ some p) ∧
    (∀ p, (autoDetectProperties props entries).start = some p ∨
        (autoDetectProperties props entries).end_ = some p →
      (autoDetectProperties props entries).dependencies ≠ some p ∧
      (autoDetectProperties props entries).colorBy ≠ some p) ∧
    (∀ (e : BasesEntry) (rest : List BasesEntry) (p : String), entries = e :: rest →
      findByKeywords (classifyProps e props).1 endKeywords = none →
      (autoDetectProperties props entries).end_ = some p →
      (autoDetectProperties props entries).start ≠ some p) := by
  cases entries with
  | nil =>
    refine ⟨?_, ?_, ?_⟩
    · intro p h
      cases h
    · intro p h
      rcases h with h | h <;> cases h
    · intro e rest p he
      cases he
  | cons e0 rest0 =>
    rw [autoDetectProperties_cons]
    refine ⟨?_, ?_, ?_⟩
    · intro p h
      obtain ⟨sn, hn⟩ := mem_classifyProps_num (findByKeywords_mem h)
      refine ⟨?_, ?_, ?_, ?_⟩
      · intro hs
        obtain ⟨sd, hd⟩ := mem_classifyProps_date (detectStart_mem hs)
        rw [hn] at hd
        cases hd
      · intro hs
        obtain ⟨sd, hd⟩ := mem_classifyProps_date (detectEnd_mem hs)
        rw [hn] at hd
        cases hd
      · intro hs
        rcases mem_classifyProps_str (findByKeywords_mem hs) with hd | ⟨sd, hd⟩ <;>
          rw [hn] at hd <;> cases hd
      · intro hs
        rcases mem_classifyProps_str (findByKeywords_mem hs) with hd | ⟨sd, hd⟩ <;>
          rw [hn] at hd <;> cases hd
    · intro p h
      have hdp : ∃ s, e0.getValue p = Value.dateV s := by
        rcases h with h | h
        · exact mem_classifyProps_date (detectStart_mem h)
        · exact mem_classifyProps_date (detectEnd_mem h)
      obtain ⟨sd, hd⟩ := hdp
      constructor
      · intro hs
        rcases mem_classifyProps_str (findByKeywords_mem hs) with hx | ⟨sx, hx⟩ <;>
          rw [hd] at hx <;> cases hx
      · intro hs
        rcases mem_classifyProps_str (findByKeywords_mem hs) with hx | ⟨sx, hx⟩ <;>
          rw [hd] at hx <;> cases hx
    · intro e rest p he hkw hend
      rw [List.cons.injEq] at he
      obtain ⟨he1, he2⟩ := he
      subst he1
      subst he2
      intro hstart
      exact detectEnd_positional_ne hkw hend hstart

/-- C9 witness: the amended disjointness on a concrete record with a
numeric "done" property and a textual "status" property. -/
theorem autoDetect_role_amended_witness :
    (autoDetectProperties ["note.done", "note.status"] [entND]).start
        ≠ some "note.done" ∧
    (autoDetectProperties ["note.done", "note.status"] [entND]).end_
        ≠ some "note.done" ∧
    (autoDetectProperties ["note.done", "note.status"] [entND]).dependencies
        ≠ some "note.done" ∧
    (autoDetectProperties ["note.done", "note.status"] [entND]).colorBy
        ≠ some "note.done" :=
  (autoDetect_role_amended ["note.done", "note.status"] [entND]).1 "note.done"
    (by decide)

/-- C10 counterexample: a property holding an Obsidian `NullValue` — a
null value that is not JavaScript null — is classified as textual and IS
assigned the color role, refuting "a property whose value is absent or
null on the first record is never assigned any role". -/
theorem autoDetect_nullvalue_cex :
    entNullStatus.getValue "note.status" = Value.nullValue ∧
    (autoDetectProperties ["note.status"] [entNullStatus]).colorBy
      = some "note.status" := by
  refine ⟨by decide, by decide⟩

theorem classifyProps_congr {e1 e2 : BasesEntry} :
    ∀ {props : List String}, (∀ p ∈ props, e1.getValue p = e2.getValue p) →
      classifyProps e1 props = classifyProps e2 props := by
  intro props
  induction props with
  | nil => intro h; rfl
  | cons q rest ih =>
    intro h
    unfold classifyProps
    rw [ih (fun p hp => h p (List.mem_cons_of_mem q hp))]
    rw [h q (List.mem_cons_self q rest)]

/-- C10 (amended): role auto-detection is a function of the first record
alone — two entry lists whose first entries expose identical values on the
available properties detect identical roles, whatever the later records
carry; and a property that is absent (JavaScript null / undefined) on the
first record is never assigned any role.  A property present with an
Obsidian `NullValue`, however, is classified as textual and can be
assigned a string role. -/
theorem autoDetect_first_entry_amended (props : List String) (e1 e2 : BasesEntry)
    (r1 r2 : List BasesEntry) (hvals : ∀ p ∈ props, e1.getValue p = e2.getValue p) :
    autoDetectProperties props (e1 :: r1) = autoDetectProperties props (e2 :: r2) ∧
    (∀ p, e1.getValue p = Value.jsNull →
      (autoDetectProperties props (e1 :: r1)).start ≠ some p ∧
      (autoDetectProperties props (e1 :: r1)).end_ ≠ some p ∧
      (autoDetectProperties props (e1 :: r1)).dependencies ≠ some p ∧
      (autoDetectProperties props (e1 :: r1)).progress ≠ some p ∧
      (autoDetectProperties props (e1 :: r1)).colorBy ≠ some p) := by
  constructor
  · rw [autoDetectProperties_cons, autoDetectProperties_cons,
      classifyProps_congr hvals]
  · intro p hnull
    rw [autoDetectProperties_cons]
    refine ⟨?_, ?_, ?_, ?_, ?_⟩
    · intro hs
      obtain ⟨sd, hd⟩ := mem_classifyProps_date (detectStart_mem hs)
      rw [hnull] at hd
      cases hd
    · intro hs
      obtain ⟨sd, hd⟩ := mem_classifyProps_date (detectEnd_mem hs)
      rw [hnull] at hd
      cases hd
    · intro hs
      rcases mem_classifyProps_str (findByKeywords_mem hs) with hd | ⟨sd, hd⟩ <;>
        rw [hnull] at hd <;> cases hd
    · intro hs
      obtain ⟨sd, hd⟩ := mem_classifyProps_num (findByKeywords_mem hs)
      rw [hnull] at hd
      cases hd
    · intro hs
      rcases mem_classifyProps_str (findByKeywords_mem hs) with hd | ⟨sd, hd⟩ <;>
        rw [hnull] at hd <;> cases hd

/-- C10 witness: two first entries agreeing on the available properties
(one with an extra unrelated property) and different tails detect the same
roles, and an absent property is never assigned. -/
theorem autoDetect_first_entry_amended_witness :
    autoDetectProperties ["note.done", "note.status"] [entND]
      = autoDetectProperties ["note.done", "note.status"] [entW, entSE] ∧
    ((autoDetectProperties ["note.done", "note.status"] [entND]).start
        ≠ some "note.missing" ∧
      (autoDetectProperties ["note.done", "note.status"] [entND]).end_
        ≠ some "note.missing" ∧
      (autoDetectProperties ["note.done", "note.status"] [entND]).dependencies
        ≠ some "note.missing" ∧
      (autoDetectProperties ["note.done", "note.status"] [entND]).progress
        ≠ some "note.missing" ∧
      (autoDetectProperties ["note.done", "note.status"] [entND]).colorBy
        ≠ some "note.missing") :=
  ⟨(autoDetect_first_entry_amended ["note.done", "note.status"] entND entW [] [entSE]
      (by decide)).1,
    (autoDetect_first_entry_amended ["note.done", "note.status"] entND entW [] [entSE]
      (by decide)).2 "note.missing" (by decide)⟩

theorem contains_iff_mem_str {l : List String} {a : String} :
    l.contains a = true ↔ a ∈ l := List.elem_iff

theorem jsMapGet?_isSome_of_mem_keys {α : Type} :
    ∀ {l : List (String × α)} {k : String},
      k ∈ l.map Prod.fst → (jsMapGet? l k).isSome = true := by
  intro l
  induction l with
  | nil =>
    intro k h
    simp at h
  | cons p rest ih =>
    intro k h
    obtain ⟨k0, v0⟩ := p
    unfold jsMapGet?
    cases hrec : jsMapGet? rest k with
    | some r => rfl
    | none =>
      rw [List.map_cons, List.mem_cons] at h
      rcases h with h | h
      · rw [if_pos h.symm]
        rfl
      · have h2 := ih h
        rw [hrec] at h2
        cases h2

theorem jsSetOfList_aux_mem : ∀ (l acc : List String) (x : String),
    x ∈ l.foldl (fun acc x => if x ∈ acc then acc else acc ++ [x]) acc →
    x ∈ acc ∨ x ∈ l := by
  intro l
  induction l with
  | nil =>
    intro acc x h
    exact Or.inl h
  | cons a l ih =>
    intro acc x h
    rw [List.foldl_cons] at h
    rcases ih _ x h with h2 | h2
    · by_cases ha : a ∈ acc
      · rw [if_pos ha] at h2
        exact Or.inl h2
      · rw [if_neg ha] at h2
        rcases List.mem_append.mp h2 with h3 | h3
        · exact Or.inl h3
        · rw [List.mem_singleton] at h3
          subst h3
          exact Or.inr (List.mem_cons_self _ _)
    · exact Or.inr (List.mem_cons_of_mem _ h2)

theorem jsSetOfList_mem {l : List String} {x : String}
    (h : x ∈ jsSetOfList l) : x ∈ l := by
  rcases jsSetOfList_aux_mem l [] x h with h2 | h2
  · cases h2
  · exact h2

theorem jsSetOfList_aux_nodup : ∀ (l acc : List String), acc.Nodup →
    (l.foldl (fun acc x => if x ∈ acc then acc else acc ++ [x]) acc).Nodup := by
  intro l
  induction l with
  | nil =>
    intro acc h
    exact h
  | cons a l ih =>
    intro acc h
    rw [List.foldl_cons]
    by_cases ha : a ∈ acc
    · rw [if_pos ha]
      exact ih acc h
    · rw [if_neg ha]
      refine ih _ ?_
      rw [List.nodup_append]
      refine ⟨h, List.nodup_singleton a, ?_⟩
      intro x hx hxa
      rw [List.mem_singleton] at hxa
      subst hxa
      exact ha hx

theorem jsSetOfList_nodup (l : List String) : (jsSetOfList l).Nodup :=
  jsSetOfList_aux_nodup l [] List.nodup_nil

theorem jsSetOfList_aux_eq : ∀ (l acc : List String), l.Nodup →
    (∀ x ∈ l, x ∉ acc) →
    l.foldl (fun acc x => if x ∈ acc then acc else acc ++ [x]) acc = acc ++ l := by
  intro l
  induction l with
  | nil =>
    intro acc _ _
    simp
  | cons a l ih =>
    intro acc hnd hdis
    rw [List.foldl_cons]
    rw [if_neg (hdis a (List.mem_cons_self a l))]
    rw [List.nodup_cons] at hnd
    have hrest : ∀ x ∈ l, x ∉ acc ++ [a] := by
      intro x hx
      rw [List.mem_append, List.mem_singleton]
      push_neg
      exact ⟨hdis x (List.mem_cons_of_mem a hx), fun he => hnd.1 (he ▸ hx)⟩
    rw [ih (acc ++ [a]) hnd.2 hrest]
    simp

theorem jsSetOfList_eq_self {l : List String} (h : l.Nodup) : jsSetOfList l = l := by
  have h2 := jsSetOfList_aux_eq l [] h (fun x _ => List.not_mem_nil x)
  simpa using h2

theorem filterMap_lookup_map_id {tm : List (String × GanttTask)}
    (htm : ∀ k t, jsMapGet? tm k = some t → t.id = k) :
    ∀ ids : List String,
      ((ids.filterMap (fun id => jsMapGet? tm id)).map (fun t => t.id))
        = ids.filter (fun id => (jsMapGet? tm id).isSome) := by
  intro ids
  induction ids with
  | nil => rfl
  | cons k ids ih =>
    cases hk : jsMapGet? tm k with
    | none => simp [List.filterMap_cons, List.filter_cons, hk, ih]
    | some t => simp [List.filterMap_cons, List.filter_cons, hk, ih, htm k t hk]

theorem filter_length_lt {α : Type} (p : α → Bool) :
    ∀ (l : List α) (x : α), x ∈ l → p x = false →
      (l.filter p).length < l.length := by
  intro l
  induction l with
  | nil =>
    intro x hx
    exact absurd hx (List.not_mem_nil x)
  | cons a l ih =>
    intro x hx hpx
    rw [List.filter_cons]
    by_cases hpa : p a = true
    · rw [if_pos hpa]
      rw [List.length_cons, List.length_cons]
      have hxl : x ∈ l := by
        rcases List.mem_cons.mp hx with h | h
        · subst h
          rw [hpx] at hpa
          simp at hpa
        · exact h
      exact Nat.succ_lt_succ (ih x hxl hpx)
    · rw [if_neg hpa]
      rw [List.length_cons]
      exact Nat.lt_succ_of_le (List.length_filter_le p l)

theorem sortByStart_map_id_perm (l : List GanttTask) :
    ((sortByStart l).map (fun t => t.id)).Perm (l.map (fun t => t.id)) :=
  List.Perm.map (fun t => t.id) (sortByStart_perm l)

theorem ready_ids_perm {tm : List (String × GanttTask)}
    (htm : ∀ k t, jsMapGet? tm k = some t → t.id = k)
    (P : String → Bool) (R : List String)
    (hcov : ∀ k ∈ R, (jsMapGet? tm k).isSome = true) :
    ((sortByStart ((R.filter P).filterMap (fun id => jsMapGet? tm id))).map
      (fun t => t.id)).Perm (R.filter P) := by
  have h0 := sortByStart_map_id_perm ((R.filter P).filterMap (fun id => jsMapGet? tm id))
  rw [filterMap_lookup_map_id htm] at h0
  have hfe : ((R.filter P).filter (fun id => (jsMapGet? tm id).isSome)) = R.filter P := by
    rw [List.filter_eq_self]
    intro a ha
    exact hcov a (List.mem_filter.mp ha).1
  rw [hfe] at h0
  exact h0

theorem remaining_filter_eq {tm : List (String × GanttTask)}
    (htm : ∀ k t, jsMapGet? tm k = some t → t.id = k)
    (P : String → Bool) (R : List String)
    (hcov : ∀ k ∈ R, (jsMapGet? tm k).isSome = true) :
    R.filter (fun id =>
        !((sortByStart ((R.filter P).filterMap (fun id => jsMapGet? tm id))).map
          (fun t => t.id)).contains id)
      = R.filter (fun id => !(P id)) := by
  refine List.filter_congr ?_
  intro x hx
  have hperm := ready_ids_perm htm P R hcov
  have hc : ((sortByStart ((R.filter P).filterMap (fun id => jsMapGet? tm id))).map
      (fun t => t.id)).contains x = P x := by
    rw [Bool.eq_iff_iff]
    rw [contains_iff_mem_str]
    rw [hperm.mem_iff]
    rw [List.mem_filter]
    constructor
    · intro h
      exact h.2
    · intro h
      exact ⟨hx, h⟩
  simp only [hc]

theorem sortLoop_ids_perm {tm : List (String × GanttTask)}
    {deps : List (String × List String)}
    (htm : ∀ k t, jsMapGet? tm k = some t → t.id = k) :
    ∀ (fuel : Nat) (sorted : List GanttTask) (placed remaining : List String),
      (∀ k ∈ remaining, (jsMapGet? tm k).isSome = true) →
      remaining.length < fuel →
      ((sortLoop tm deps fuel sorted placed remaining).map (fun t => t.id)).Perm
        (sorted.map (fun t => t.id) ++ remaining) := by
  intro fuel
  induction fuel with
  | zero =>
    intro sorted placed remaining hcov hlt
    exact absurd hlt (Nat.not_lt_zero _)
  | succ f ih =>
    intro sorted placed remaining hcov hlt
    cases remaining with
    | nil =>
      show ((sorted : List GanttTask).map (fun t => t.id)).Perm
        (sorted.map (fun t => t.id) ++ [])
      rw [List.append_nil]
    | cons r rs =>
      simp only [sortLoop]
      split
      next he =>
        rw [List.map_append]
        refine List.Perm.append_left _ ?_
        have h0 := sortByStart_map_id_perm ((r :: rs).filterMap (fun id => jsMapGet? tm id))
        rw [filterMap_lookup_map_id htm] at h0
        have hfe : (r :: rs).filter (fun id => (jsMapGet? tm id).isSome) = r :: rs := by
          rw [List.filter_eq_self]
          intro a ha
          exact hcov a ha
        rw [hfe] at h0
        exact h0
      next he =>
        set P : String → Bool :=
          fun id => ((jsMapGet? deps id).getD []).all (fun d => placed.contains d) with hP
        set RS : List GanttTask :=
          sortByStart (((r :: rs).filter P).filterMap (fun id => jsMapGet? tm id)) with hRS
        have hne : ((r :: rs).filter P).filterMap (fun id => jsMapGet? tm id) ≠ [] := by
          intro h0
          apply he
          rw [h0]
          rfl
        obtain ⟨t, ht⟩ := List.exists_mem_of_ne_nil _ hne
        rw [List.mem_filterMap] at ht
        obtain ⟨k, hkIds, hkt⟩ := ht
        have hidk : t.id = k := htm k t hkt
        have hkR : k ∈ r :: rs := (List.mem_filter.mp hkIds).1
        have htRS : t ∈ RS := by
          rw [hRS]
          rw [(sortByStart_perm _).mem_iff]
          rw [List.mem_filterMap]
          exact ⟨k, hkIds, hkt⟩
        have hkmem : k ∈ RS.map (fun t => t.id) := by
          rw [← hidk]
          exact List.mem_map_of_mem _ htRS
        have hc : (RS.map (fun t => t.id)).contains k = true :=
          contains_iff_mem_str.mpr hkmem
        have hfail : (fun id => !(RS.map (fun t => t.id)).contains id) k = false := by
          show (!(RS.map (fun t => t.id)).contains k) = false
          rw [hc]
          rfl
        have hdec := filter_length_lt
          (fun id => !(RS.map (fun t => t.id)).contains id) (r :: rs) k hkR hfail
        have hlt' : ((r :: rs).filter
            (fun id => !(RS.map (fun t => t.id)).contains id)).length < f :=
          Nat.lt_of_lt_of_le hdec (Nat.lt_succ_iff.mp hlt)
        have hcov' : ∀ k2 ∈ (r :: rs).filter
            (fun id => !(RS.map (fun t => t.id)).contains id),
            (jsMapGet? tm k2).isSome = true := by
          intro k2 hk2
          exact hcov k2 (List.mem_filter.mp hk2).1
        have hmain := ih (sorted ++ RS) (placed ++ RS.map (fun t => t.id))
          ((r :: rs).filter (fun id => !(RS.map (fun t => t.id)).contains id))
          hcov' hlt'
        refine hmain.trans ?_
        rw [List.map_append]
        rw [List.append_assoc]
        refine List.Perm.append_left _ ?_
        have h1 : (RS.map (fun t => t.id)).Perm ((r :: rs).filter P) := by
          rw [hRS]
          exact ready_ids_perm htm P (r :: rs) hcov
        have h2 : (r :: rs).filter (fun id => !(RS.map (fun t => t.id)).contains id)
            = (r :: rs).filter (fun id => !(P id)) := by
          rw [hRS]
          exact remaining_filter_eq htm P (r :: rs) hcov
        rw [h2]
        refine (h1.append (List.Perm.refl _)).trans ?_
        exact List.filter_append_perm P (r :: rs)

theorem sortLoop_ids_nodup {tm : List (String × GanttTask)}
    {deps : List (String × List String)}
    (htm : ∀ k t, jsMapGet? tm k = some t → t.id = k) :
    ∀ (fuel : Nat) (sorted : List GanttTask) (placed remaining : List String),
      remaining.Nodup →
      (sorted.map (fun t => t.id)).Nodup →
      (∀ k ∈ remaining, k ∉ sorted.map (fun t => t.id)) →
      ((sortLoop tm deps fuel sorted placed remaining).map (fun t => t.id)).Nodup := by
  intro fuel
  induction fuel with
  | zero =>
    intro sorted placed remaining _ hs _
    exact hs
  | succ f ih =>
    intro sorted placed remaining hrem hs hdisj
    cases remaining with
    | nil => exact hs
    | cons r rs =>
      simp only [sortLoop]
      split
      next he =>
        rw [List.map_append, List.nodup_append]
        refine ⟨hs, ?_, ?_⟩
        · have hp := sortByStart_map_id_perm ((r :: rs).filterMap (fun id => jsMapGet? tm id))
          rw [hp.nodup_iff]
          rw [filterMap_lookup_map_id htm]
          exact hrem.filter _
        · intro x hx1 hx2
          have hp := sortByStart_map_id_perm ((r :: rs).filterMap (fun id => jsMapGet? tm id))
          rw [hp.mem_iff] at hx2
          rw [filterMap_lookup_map_id htm] at hx2
          exact hdisj x (List.mem_filter.mp hx2).1 hx1
      next he =>
        set P : String → Bool :=
          fun id => ((jsMapGet? deps id).getD []).all (fun d => placed.contains d) with hP
        set RS : List GanttTask :=
          sortByStart (((r :: rs).filter P).filterMap (fun id => jsMapGet? tm id)) with hRS
        have hRSids : (RS.map (fun t => t.id)).Perm
            (((r :: rs).filter P).filter (fun id => (jsMapGet? tm id).isSome)) := by
          have h0 := sortByStart_map_id_perm
            (((r :: rs).filter P).filterMap (fun id => jsMapGet? tm id))
          rw [filterMap_lookup_map_id htm] at h0
          rw [hRS]
          exact h0
        have hRSsub : ∀ x ∈ RS.map (fun t => t.id), x ∈ r :: rs := by
          intro x hx
          have hx2 := hRSids.mem_iff.mp hx
          exact (List.mem_filter.mp (List.mem_filter.mp hx2).1).1
        have hRSnodup : (RS.map (fun t => t.id)).Nodup := by
          rw [hRSids.nodup_iff]
          exact (hrem.filter _).filter _
        have hrem' : ((r :: rs).filter
            (fun id => !(RS.map (fun t => t.id)).contains id)).Nodup :=
          hrem.filter _
        have hs' : ((sorted ++ RS).map (fun t => t.id)).Nodup := by
          rw [List.map_append, List.nodup_append]
          refine ⟨hs, hRSnodup, ?_⟩
          intro x hx1 hx2
          exact hdisj x (hRSsub x hx2) hx1
        have hdisj' : ∀ k ∈ (r :: rs).filter
            (fun id => !(RS.map (fun t => t.id)).contains id),
            k ∉ (sorted ++ RS).map (fun t => t.id) := by
          intro k hk hmem
          obtain ⟨hkR, hkpred⟩ := List.mem_filter.mp hk
          have hkpred' : (!(RS.map (fun t => t.id)).contains k) = true := hkpred
          rw [List.map_append, List.mem_append] at hmem
          rcases hmem with hmem | hmem
          · exact hdisj k hkR hmem
          · have hc : (RS.map (fun t => t.id)).contains k = true :=
              contains_iff_mem_str.mpr hmem
            rw [hc] at hkpred'
            exact absurd hkpred' (by decide)
        exact ih (sorted ++ RS) (placed ++ RS.map (fun t => t.id))
          ((r :: rs).filter (fun id => !(RS.map (fun t => t.id)).contains id))
          hrem' hs' hdisj'

theorem sortByDependencies_ids_nodup (tasks : List GanttTask) :
    ((sortByDependencies tasks).map (fun t => t.id)).Nodup := by
  unfold sortByDependencies
  split
  next h =>
    cases tasks with
    | nil => exact List.nodup_nil
    | cons a l =>
      cases l with
      | nil => simp
      | cons b l =>
        exfalso
        rw [List.length_cons, List.length_cons] at h
        omega
  next h =>
    show ((sortLoop (tasks.map (fun t => (t.id, t)))
        (tasks.map (fun t => (t.id, parseDeps (tasks.map (fun t => (t.id, t))) t)))
        ((jsSetOfList (tasks.map (fun t => t.id))).length + 1) [] []
        (jsSetOfList (tasks.map (fun t => t.id)))).map (fun t => t.id)).Nodup
    refine sortLoop_ids_nodup (fun k t hk => (taskMap_lookup hk).2) _ [] []
      (jsSetOfList (tasks.map (fun t => t.id))) (jsSetOfList_nodup _)
      List.nodup_nil ?_
    intro k _ hk
    exact absurd hk (List.not_mem_nil k)

theorem sortByDependencies_ids_perm {tasks : List GanttTask}
    (h : (tasks.map (fun t => t.id)).Nodup) :
    ((sortByDependencies tasks).map (fun t => t.id)).Perm
      (tasks.map (fun t => t.id)) := by
  unfold sortByDependencies
  split
  next hlen => exact List.Perm.refl _
  next hlen =>
    show ((sortLoop (tasks.map (fun t => (t.id, t)))
        (tasks.map (fun t => (t.id, parseDeps (tasks.map (fun t => (t.id, t))) t)))
        ((jsSetOfList (tasks.map (fun t => t.id))).length + 1) [] []
        (jsSetOfList (tasks.map (fun t => t.id)))).map (fun t => t.id)).Perm
      (tasks.map (fun t => t.id))
    have hcov : ∀ k ∈ jsSetOfList (tasks.map (fun t => t.id)),
        (jsMapGet? (tasks.map (fun t => (t.id, t))) k).isSome = true := by
      intro k hk
      refine jsMapGet?_isSome_of_mem_keys ?_
      have hk2 := jsSetOfList_mem hk
      rw [List.map_map]
      exact hk2
    have hperm := @sortLoop_ids_perm (tasks.map (fun t => (t.id, t)))
      (tasks.map (fun t => (t.id, parseDeps (tasks.map (fun t => (t.id, t))) t)))
      (fun k t hk => (taskMap_lookup hk).2)
      ((jsSetOfList (tasks.map (fun t => t.id))).length + 1) [] []
      (jsSetOfList (tasks.map (fun t => t.id))) hcov (Nat.lt_succ_self _)
    refine hperm.trans ?_
    rw [jsSetOfList_eq_self h]
    exact List.Perm.refl _

theorem sortByDependencies_perm {tasks : List GanttTask}
    (h : (tasks.map (fun t => t.id)).Nodup) :
    (sortByDependencies tasks).Perm tasks := by
  have hids := sortByDependencies_ids_perm h
  have hnodup_out : ((sortByDependencies tasks).map (fun t => t.id)).Nodup :=
    hids.nodup_iff.mpr h
  have hnd1 : (sortByDependencies tasks).Nodup := List.Nodup.of_map _ hnodup_out
  have hnd2 : tasks.Nodup := List.Nodup.of_map _ h
  rw [List.perm_ext_iff_of_nodup hnd1 hnd2]
  intro t
  constructor
  · intro ht
    exact sortByDependencies_mem ht
  · intro ht
    have h1 : t.id ∈ (sortByDependencies tasks).map (fun t => t.id) :=
      hids.mem_iff.mpr (List.mem_map_of_mem _ ht)
    rw [List.mem_map] at h1
    obtain ⟨u, hu, hid⟩ := h1
    have hu2 := sortByDependencies_mem hu
    have heq : u = t := List.inj_on_of_nodup_map h hu2 ht hid
    rw [← heq]
    exact hu

/-- C3 counterexample: the implementation prunes dependencies that
reference no task in the set BEFORE the loop, so a task with only dangling
dependencies is ready immediately, while the described algorithm would
find no ready task and fall back to a plain start-date sort; and two tasks
sharing one id collapse to a single output task, so the output does not
always contain each input task exactly once. -/
theorem sortByDependencies_spec_cex :
    ((sortByDependencies [tDangA, tDangB]).map (fun t => t.id) = ["A", "B"] ∧
      (specSortByDependencies [tDangA, tDangB]).map (fun t => t.id) = ["B", "A"]) ∧
    sortByDependencies [tDup1, tDup2] = [tDup2] :=
  ⟨⟨by decide, by decide⟩, by decide⟩

/-- C3 (amended): `sortByDependencies` terminates on every input and its
output is drawn from the input tasks; when the input ids are pairwise
distinct the output contains each input task exactly once (it is a
permutation of the input).  The stepwise algorithm differs from the
described one in that dependencies referencing tasks outside the set are
pruned upfront and hence treated as satisfied rather than triggering the
no-ready-task fallback. -/
theorem sortByDependencies_amended (tasks : List GanttTask)
    (h : (tasks.map (fun t => t.id)).Nodup) :
    (∀ t ∈ sortByDependencies tasks, t ∈ tasks) ∧
    (sortByDependencies tasks).Perm tasks :=
  ⟨fun _ ht => sortByDependencies_mem ht, sortByDependencies_perm h⟩

/-- C3 witness: the amended claim on the two-task dangling-dependency
set; the ids are distinct and the output is a permutation of the input. -/
theorem sortByDependencies_amended_witness :
    ([tDangA, tDangB].map (fun t => t.id)).Nodup ∧
    (sortByDependencies [tDangA, tDangB]).Perm [tDangA, tDangB] :=
  ⟨by decide, (sortByDependencies_amended [tDangA, tDangB] (by decide)).2⟩

/-- C5 (confirmed): in each mapping pass every output task has a unique
id, and each id is derived deterministically from the record's file path
(spaces replaced by underscores), the path coming from one of the input
records. -/
theorem mapEntriesToTasks_unique_ids (g : String → Option JSDate)
    (entries : List BasesEntry) (cfg : TaskMapperConfig) :
    ((mapEntriesToTasks g entries cfg).map (fun t => t.id)).Nodup ∧
    ∀ t ∈ mapEntriesToTasks g entries cfg,
      t.id = makeTaskId t.filePath ∧ ∃ e ∈ entries, t.filePath = e.file.path := by
  constructor
  · unfold mapEntriesToTasks
    cases cfg.startProperty with
    | none => exact List.nodup_nil
    | some sp =>
      show ((sortByDependencies (entries.filterMap
        (mapEntry g cfg sp (buildNameToId entries)
          (buildColorValues cfg entries)))).map (fun t => t.id)).Nodup
      exact sortByDependencies_ids_nodup _
  · intro t ht
    obtain ⟨sp, hsp, e, he, hm⟩ := mem_mapEntriesToTasks ht
    cases hparse : parseObsidianDate g (extractRawValue (e.getValue sp)) with
    | none =>
      rw [mapEntry_none hparse] at hm
      cases hm
    | some s =>
      rw [mapEntry_some hparse] at hm
      rw [Option.some.injEq] at hm
      subst hm
      exact ⟨rfl, e, he, rfl⟩

/-- C5 witness: the uniqueness invariant evaluated on a concrete two-record
pass. -/
theorem mapEntriesToTasks_unique_ids_witness :
    ((mapEntriesToTasks gNone [entA, entMil] cfgA).map
      (fun t => t.id)).Nodup :=
  (mapEntriesToTasks_unique_ids gNone [entA, entMil] cfgA).1
